import Mathlib

/-!
Verification development for the persisted fixed-depth binary Merkle tree
implemented in `src/merkle_tree.ts` (class `MerkleTree`).

The TypeScript source is shallowly embedded below.  Digests produced by the
external `Sha256Hasher` are modelled as the free terms generated by `hash`
and `compress` (the hasher lives outside the embedded module and is specified
only at its consumed interface), buffers are lists of bytes, the in-memory
node cache and the persistent store are association lists keyed by
`(height, index)`, and a LevelUp batch is the ordered list of staged puts.
Asynchronous store access is sequential in the source (every `await` is on a
single-threaded code path), so the embedding threads the state explicitly.
-/

abbrev Bytes := List Nat

/-- Modelled from the spec: digests of the external hash primitive
(`hash(bytes) -> 32-byte digest`, `compress(left, right) -> digest`),
which is outside the embedded source file.  Digests are taken to be the
free terms generated by the two operations. -/
inductive Digest : Type
  | hashOf (b : Bytes)
  | compressOf (l r : Digest)
deriving DecidableEq, Repr

namespace Sha256Hasher

/-- Modelled from the spec: `hash(bytes) -> digest` of the external hasher. -/
def hash (b : Bytes) : Digest := Digest.hashOf b

/-- Modelled from the spec: `compress(left, right) -> digest` of the external hasher. -/
def compress (l r : Digest) : Digest := Digest.compressOf l r

end Sha256Hasher

/-- Lookup in an association list (the first entry with the given key wins;
keys set by `aset` are unique, matching JavaScript `Map.get`). -/
def alookup {κ α : Type} [DecidableEq κ] : List (κ × α) → κ → Option α
  | [], _ => none
  | (k0, v0) :: rest, k => if k = k0 then some v0 else alookup rest k

/-- Insert-or-replace in an association list: replaces the value in place if
the key is present (keeping its position), else appends.  This matches
JavaScript `Map.set`, which keeps the original insertion position. -/
def aset {κ α : Type} [DecidableEq κ] : List (κ × α) → κ → α → List (κ × α)
  | [], k, v => [(k, v)]
  | (k0, v0) :: rest, k, v =>
    if k = k0 then (k0, v) :: rest else (k0, v0) :: aset rest k v

/-- A node is addressed by `(height, index)`; the string key
`name/node/height/index` of the source is injective in these two
components for a fixed tree name. -/
abbrev NodeKey := Nat × Nat

abbrev NodeMap := List (NodeKey × Digest)

/-- A LevelUp batch: the ordered list of staged node puts (the metadata put
staged by `writeMetaData(batch)` is applied by `commitBatch` below). -/
abbrev Batch := List (NodeKey × Digest)

def MAX_DEPTH : Nat := 32

def LEAF_BYTES : Nat := 64

/-- The in-memory `MerkleTree` instance together with the backing store:
`root`, `depth` and `cache` are the instance fields, `store` holds the
committed node records of the underlying db, and `meta` holds the committed
metadata record `(root, depth)` keyed by the tree name. -/
structure MerkleTree where
  root : Digest
  depth : Nat
  cache : NodeMap
  store : NodeMap
  meta : Option (Digest × Nat)
deriving DecidableEq, Repr

/-- `getEmptyNodeHash(height)` of the source: hash of 64 zero bytes at the
leaf level, `compress(child, child)` above. -/
def getEmptyNodeHash : Nat → Digest
  | 0 => Sha256Hasher.hash (List.replicate LEAF_BYTES 0)
  | height + 1 =>
    let childHash := getEmptyNodeHash height
    Sha256Hasher.compress childHash childHash

/-- The digest an external observer reads for a node: cache first, then the
store, then the per-height empty hash.  This is exactly the value returned
by `getNode` (proved below); it is the semantic node map of a tree state. -/
def nodeVal (t : MerkleTree) (k : NodeKey) : Digest :=
  match alookup t.cache k with
  | some v => v
  | none =>
    match alookup t.store k with
    | some v => v
    | none => getEmptyNodeHash k.1

/-- `getNode(index, height)` of the source: return the cached digest if
present; otherwise read the store and populate the cache, falling back to
the empty hash on a store miss (the `catch` branch). -/
def getNode (t : MerkleTree) (index height : Nat) : Digest × MerkleTree :=
  match alookup t.cache (height, index) with
  | some cached => (cached, t)
  | none =>
    match alookup t.store (height, index) with
    | some value => (value, { t with cache := aset t.cache (height, index) value })
    | none =>
      let empty := getEmptyNodeHash height
      (empty, { t with cache := aset t.cache (height, index) empty })

/-- `updateNode(index, height, value, batch)` of the source: write-through
cache update plus staging the put into the batch. -/
def updateNode (t : MerkleTree) (index height : Nat) (value : Digest) (batch : Batch) :
    MerkleTree × Batch :=
  ({ t with cache := aset t.cache (height, index) value },
   batch ++ [((height, index), value)])

/-- `writeMetaData(batch)` followed by `batch.write()`: apply every staged
node put to the store and persist the metadata record `(root, depth)` taken
from the instance fields at commit time. -/
def commitBatch (t : MerkleTree) (b : Batch) : MerkleTree :=
  { t with
    store := b.foldl (fun s kv => aset s kv.1 kv.2) t.store,
    meta := some (t.root, t.depth) }

def badDepthMsg : String := "Bad depth"

/-- The `MerkleTree` constructor: throws on a depth outside `[1, MAX_DEPTH]`,
otherwise initialises `root` from the optional argument or the empty hash of
the full depth. -/
def mkMerkleTree (store : NodeMap) (meta : Option (Digest × Nat)) (depth : Nat)
    (root? : Option Digest) : Except String MerkleTree :=
  if 1 ≤ depth ∧ depth ≤ MAX_DEPTH then
    .ok { root := root?.getD (getEmptyNodeHash depth), depth := depth,
          cache := [], store := store, meta := meta }
  else
    .error badDepthMsg

/-- The static `MerkleTree.new`: restore `(root, depth)` from an existing
metadata record, else construct a fresh tree of the requested depth and
persist its initial metadata before returning. -/
def treeNew (store : NodeMap) (meta : Option (Digest × Nat)) (depth : Nat) :
    Except String MerkleTree :=
  match meta with
  | some (root, d) => mkMerkleTree store meta d (some root)
  | none =>
    match mkMerkleTree store none depth none with
    | .ok tr => .ok { tr with meta := some (tr.root, tr.depth) }
    | .error e => .error e

/-- The sibling index used throughout the source:
`isRight ? currentIndex - 1 : currentIndex + 1`. -/
def sibOf (i : Nat) : Nat := if i % 2 = 1 then i - 1 else i + 1

/-- The loop body of `getHashPath`, iterating heights `h, h+1, ...` with
`fuel` iterations left: read the sibling then the current node, emit the
pair `(left, right)` with the current node on the right iff the index is
odd, then ascend. -/
def hashPathLoop (t : MerkleTree) (idx h fuel : Nat) : List (Digest × Digest) × MerkleTree :=
  match fuel with
  | 0 => ([], t)
  | fuel + 1 =>
    let pairIndex := sibOf idx
    let (pairHash, t1) := getNode t pairIndex h
    let (currentHash, t2) := getNode t1 idx h
    let pair := if idx % 2 = 1 then (pairHash, currentHash) else (currentHash, pairHash)
    let (rest, t3) := hashPathLoop t2 (idx / 2) (h + 1) fuel
    (pair :: rest, t3)

/-- `getHashPath(index)` of the source (the returned `HashPath` container is
its list of `(left, right)` pairs; the threaded tree records the cache
population the call performs). -/
def getHashPath (t : MerkleTree) (index : Nat) : List (Digest × Digest) × MerkleTree :=
  hashPathLoop t index 0 t.depth

/-- The ascent loop of `updateElement`, with `fuel` heights left starting at
`h`: read the sibling, compress in left/right order, ascend, and stage the
new parent digest. -/
def updateLoop (t : MerkleTree) (b : Batch) (idx : Nat) (v : Digest) (h fuel : Nat) :
    MerkleTree × Batch × Digest :=
  match fuel with
  | 0 => (t, b, v)
  | fuel + 1 =>
    let pairIndex := sibOf idx
    let (pairHash, t1) := getNode t pairIndex h
    let v' := if idx % 2 = 1 then Sha256Hasher.compress pairHash v
              else Sha256Hasher.compress v pairHash
    let (t2, b2) := updateNode t1 (idx / 2) (h + 1) v' b
    updateLoop t2 b2 (idx / 2) v' (h + 1) fuel

/-- `updateElement(index, value)` up to (but not including) `batch.write()`:
hash the leaf, store it, walk to the root staging every new digest, and set
the in-memory root.  Returns the mutated instance, the accumulated batch and
the new root. -/
def updateElementPrepare (t : MerkleTree) (index : Nat) (value : Bytes) :
    MerkleTree × Batch × Digest :=
  let currentValue := Sha256Hasher.hash value
  let (t1, b1) := updateNode t index 0 currentValue []
  let (t2, b2, r) := updateLoop t1 b1 index currentValue 0 t.depth
  ({ t2 with root := r }, b2, r)

/-- `updateElement(index, value)` of the source: prepare, then commit the
batch (node puts plus metadata) atomically.  Returns the new tree state and
the returned root. -/
def updateElement (t : MerkleTree) (index : Nat) (value : Bytes) : MerkleTree × Digest :=
  let (t', b, r) := updateElementPrepare t index value
  (commitBatch t' b, r)

/-- The mutable state threaded through `updateElements`: the instance (with
its cache), the batch being accumulated, and the `nodeUpdates` map of
pending digests keyed by `height:index`. -/
structure BatchCtx where
  t : MerkleTree
  b : Batch
  pend : NodeMap
deriving Repr

/-- The leaf loop body of `updateElements`: hash the value, write the leaf
node, and record the pending digest under `(0, index)`. -/
def elemStep (c : BatchCtx) (iv : Nat × Bytes) : BatchCtx :=
  let leafValue := Sha256Hasher.hash iv.2
  let (t', b') := updateNode c.t iv.1 0 leafValue c.b
  ⟨t', b', aset c.pend (0, iv.1) leafValue⟩

/-- The indices recorded in `nodeUpdates` at a given height, in insertion
order (the `filter(startsWith).map(parseInt)` of the source). -/
def pendKeysAt (pend : NodeMap) (h : Nat) : List Nat :=
  ((pend.map Prod.fst).filter (fun k => k.1 = h)).map Prod.snd

/-- JavaScript `new Set(list)` iteration order: deduplicate keeping the
first occurrence. -/
def dedupFirst (l : List Nat) : List Nat :=
  l.foldl (fun acc x => if x ∈ acc then acc else acc ++ [x]) []

/-- The per-index body of the height loop of `updateElements`: resolve the
current and sibling digests preferring `nodeUpdates` over `getNode`, compress
in left/right order, write the parent node and record it in
`currentLevelUpdates` (the third component). -/
def idxStep (h : Nat) (pend : NodeMap) (st : MerkleTree × Batch × NodeMap) (index : Nat) :
    MerkleTree × Batch × NodeMap :=
  let (t, b, cur) := st
  let siblingIndex := sibOf index
  let (currentValue, t1) :=
    match alookup pend (h, index) with
    | some v => (v, t)
    | none => getNode t index h
  let (siblingValue, t2) :=
    match alookup pend (h, siblingIndex) with
    | some v => (v, t1)
    | none => getNode t1 siblingIndex h
  let parentValue := if index % 2 = 1 then Sha256Hasher.compress siblingValue currentValue
                     else Sha256Hasher.compress currentValue siblingValue
  let (t3, b3) := updateNode t2 (index / 2) (h + 1) parentValue b
  (t3, b3, aset cur (h + 1, index / 2) parentValue)

/-- One iteration of the height loop of `updateElements`: collect the
distinct indices pending at this height, update each one's parent, then copy
`currentLevelUpdates` into `nodeUpdates` for the next height. -/
def heightStep (c : BatchCtx) (h : Nat) : BatchCtx :=
  let indices := dedupFirst (pendKeysAt c.pend h)
  let (t', b', cur) := indices.foldl (idxStep h c.pend) (c.t, c.b, [])
  ⟨t', b', cur.foldl (fun m kv => aset m kv.1 kv.2) c.pend⟩

/-- `updateElements(updates)` of the source: return the unchanged root on an
empty update list; otherwise write all leaves, process each height, take the
pending value at `(depth, 0)` (falling back to the current root), and commit
one batch. -/
def updateElements (t : MerkleTree) (updates : List (Nat × Bytes)) : MerkleTree × Digest :=
  match updates with
  | [] => (t, t.root)
  | _ :: _ =>
    let c1 := updates.foldl elemStep ⟨t, [], []⟩
    let c2 := (List.range t.depth).foldl heightStep c1
    let root := (alookup c2.pend (t.depth, 0)).getD c2.t.root
    (commitBatch { c2.t with root := root } c2.b, root)

/-- Applying `updateElement` once per pair, left to right; the second
component is the root returned by the last call (the initial root if the
list is empty). -/
def seqUpdate (t : MerkleTree) (updates : List (Nat × Bytes)) : MerkleTree × Digest :=
  updates.foldl (fun acc iv => updateElement acc.1 iv.1 iv.2) (t, t.root)

/-! ### Byte-level model of the metadata record

`writeMetaData` builds a 40-byte buffer holding the root digest bytes at
offsets `0..32` and the depth as an unsigned 32-bit little-endian integer at
offsets `32..36`; `MerkleTree.new` decodes it with `slice(0, 32)` and
`readUInt32LE(32)`.  The digest here is its raw 32 bytes. -/

/-- `Buffer.alloc(n)`: `n` zero bytes. -/
def bufferAlloc (n : Nat) : List Nat := List.replicate n 0

/-- `src.copy(tgt)`: overwrite the start of `tgt` with `src`, truncating to
the target length. -/
def bufferCopy (src tgt : List Nat) : List Nat :=
  src.take tgt.length ++ tgt.drop (min src.length tgt.length)

/-- `data.writeUInt32LE(v, off)`: overwrite four bytes at `off` with the
little-endian encoding of `v`. -/
def writeUInt32LEAt (data : List Nat) (v off : Nat) : List Nat :=
  data.take off ++ [v % 256, v / 256 % 256, v / 2 ^ 16 % 256, v / 2 ^ 24 % 256]
    ++ data.drop (off + 4)

/-- The 40-byte metadata record written by `writeMetaData`. -/
def writeMetaDataBytes (rootBytes : List Nat) (depth : Nat) : List Nat :=
  writeUInt32LEAt (bufferCopy rootBytes (bufferAlloc 40)) depth 32

/-- `data.readUInt32LE(off)`. -/
def readUInt32LE (data : List Nat) (off : Nat) : Nat :=
  data.getD off 0 + 256 * data.getD (off + 1) 0
    + 2 ^ 16 * data.getD (off + 2) 0 + 2 ^ 24 * data.getD (off + 3) 0

/-- The `(root, depth)` pair `MerkleTree.new` decodes from an existing
metadata record: `meta.slice(0, 32)` and `meta.readUInt32LE(32)`. -/
def restoreMeta (meta : List Nat) : List Nat × Nat :=
  (meta.take 32, readUInt32LE meta 32)

/-! ### Specification-side definitions -/

/-- Modelled from the spec: the empty-hash table,
`E[0] = hash(64 zero bytes)`, `E[h] = compress(E[h-1], E[h-1])`. -/
def emptyHashSpec : Nat → Digest
  | 0 => Sha256Hasher.hash (List.replicate 64 0)
  | h + 1 => Sha256Hasher.compress (emptyHashSpec h) (emptyHashSpec h)

/-- The ancestor index of leaf index `i` at height `h`: `h`-fold integer
halving (`i := i / 2` per level). -/
def anc (i : Nat) : Nat → Nat
  | 0 => i
  | h + 1 => anc i h / 2

/-- The digest of the path node of leaf index `i₀` at height `h` after the
leaf digest is set to `d`, with every sibling read from the fixed node map
`V`: the compress chain of `updateElement`. -/
def pathVal (V : NodeKey → Digest) (i₀ : Nat) (d : Digest) : Nat → Digest
  | 0 => d
  | h + 1 =>
    let idx := anc i₀ h
    let s := V (h, sibOf idx)
    if idx % 2 = 1 then Sha256Hasher.compress s (pathVal V i₀ d h)
    else Sha256Hasher.compress (pathVal V i₀ d h) s

/-- The node map after a single-leaf update: the path nodes of `i₀` up to
height `hmax` take their chain values, everything else keeps `V`. -/
def pathOverrideP (V : NodeKey → Digest) (i₀ : Nat) (d : Digest) (hmax : Nat) :
    NodeKey → Digest :=
  fun k => if k.1 ≤ hmax ∧ anc i₀ k.1 = k.2 then pathVal V i₀ d k.1 else V k

/-- Replaying a hash path from a leaf digest, as the spec describes the
verifier: at each pair the accumulator takes the right slot iff the index at
that height is odd, and the index is halved to ascend. -/
def replayPath : Nat → Digest → List (Digest × Digest) → Digest
  | _, d, [] => d
  | i, d, (l, r) :: rest =>
    replayPath (i / 2)
      (if i % 2 = 1 then Sha256Hasher.compress l d else Sha256Hasher.compress d r) rest

/-- The update list with leaf values replaced by their digests. -/
def leafDigests (updates : List (Nat × Bytes)) : List (Nat × Digest) :=
  updates.map (fun iv => (iv.1, Sha256Hasher.hash iv.2))

/-- Whether some updated leaf lies below node `(h, i)`. -/
def touched (f : List (Nat × Digest)) (h i : Nat) : Bool :=
  f.any (fun p => anc p.1 h == i)

/-- The node values after applying the update set `f` of leaf digests on top
of the node map `V`, recomputed top down: an untouched node keeps `V`, a
touched internal node is the compression of its children, and a touched leaf
takes its new digest. -/
def newVal (V : NodeKey → Digest) (f : List (Nat × Digest)) : Nat → Nat → Digest
  | 0, i =>
    if touched f 0 i then (alookup f i).getD (V (0, i)) else V (0, i)
  | h + 1, i =>
    if touched f (h + 1) i then
      Sha256Hasher.compress (newVal V f h (2 * i)) (newVal V f h (2 * i + 1))
    else V (h + 1, i)

/-- A freshly constructed tree of depth `d` over an empty store, as
`treeNew` returns it. -/
def freshTree (d : Nat) : MerkleTree :=
  { root := getEmptyNodeHash d, depth := d, cache := [], store := [],
    meta := some (getEmptyNodeHash d, d) }

/-! ### Proof-side invariants for the batch update -/

/-- Invariant of the leaf-writing phase of `updateElements`, relative to the
entry state `t0` and the full leaf-digest map `f`, after the updates with
indices `done` have been written. -/
def P1Inv (t0 : MerkleTree) (f : List (Nat × Digest)) (c : BatchCtx) (done : List Nat) : Prop :=
  (∀ k : NodeKey, nodeVal c.t k =
    if k.1 = 0 ∧ k.2 ∈ done then (alookup f k.2).getD (nodeVal t0 k) else nodeVal t0 k)
  ∧ (∀ k : NodeKey, alookup c.pend k =
    if k.1 = 0 ∧ k.2 ∈ done then alookup f k.2 else none)
  ∧ (∀ kv ∈ c.b, (alookup c.t.cache kv.1).isSome = true)
  ∧ c.t.store = t0.store ∧ c.t.root = t0.root ∧ c.t.depth = t0.depth ∧ c.t.meta = t0.meta

/-- Invariant of the height loop of `updateElements` after the heights below
`h` have been processed: every node untouched by the update set still reads
its original digest, and `nodeUpdates` holds exactly the recomputed digests
of the touched nodes up to height `h`. -/
def BInv (t0 : MerkleTree) (f : List (Nat × Digest)) (c : BatchCtx) (h : Nat) : Prop :=
  (∀ k : NodeKey, touched f k.1 k.2 = false → nodeVal c.t k = nodeVal t0 k)
  ∧ (∀ g i, alookup c.pend (g, i) =
      if g ≤ h ∧ touched f g i = true then some (newVal (nodeVal t0) f g i) else none)
  ∧ (∀ kv ∈ c.b, (alookup c.t.cache kv.1).isSome = true)
  ∧ c.t.store = t0.store ∧ c.t.root = t0.root ∧ c.t.depth = t0.depth ∧ c.t.meta = t0.meta

/-- Invariant of the inner per-index fold at height `h` of `updateElements`
(the state is `(tree, batch, currentLevelUpdates)`), after the indices
`done` have been processed. -/
def KInv (t0 : MerkleTree) (f : List (Nat × Digest)) (h : Nat)
    (st : MerkleTree × Batch × NodeMap) (done : List Nat) : Prop :=
  (∀ k : NodeKey, touched f k.1 k.2 = false → nodeVal st.1 k = nodeVal t0 k)
  ∧ (∀ k : NodeKey, ∀ v, alookup st.2.2 k = some v →
      k.1 = h + 1 ∧ touched f (h + 1) k.2 = true ∧ v = newVal (nodeVal t0) f (h + 1) k.2)
  ∧ (∀ j ∈ done, (alookup st.2.2 (h + 1, j / 2)).isSome = true)
  ∧ (st.2.2.map Prod.fst).Nodup
  ∧ (∀ kv ∈ st.2.1, (alookup st.1.cache kv.1).isSome = true)
  ∧ st.1.store = t0.store ∧ st.1.root = t0.root ∧ st.1.depth = t0.depth ∧ st.1.meta = t0.meta

/-! ### Association list lemmas -/

theorem alookup_aset_self {κ α : Type} [DecidableEq κ] (m : List (κ × α)) (k : κ) (v : α) :
    alookup (aset m k v) k = some v := by
  induction m with
  | nil => simp [aset, alookup]
  | cons kv rest ih =>
    obtain ⟨k0, v0⟩ := kv
    by_cases hk : k = k0 <;> simp [aset, alookup, hk, ih]

theorem alookup_aset_ne {κ α : Type} [DecidableEq κ] (m : List (κ × α)) (k k' : κ) (v : α)
    (h : k' ≠ k) : alookup (aset m k v) k' = alookup m k' := by
  induction m with
  | nil => simp [aset, alookup, h]
  | cons kv rest ih =>
    obtain ⟨k0, v0⟩ := kv
    by_cases hk : k = k0
    · subst hk
      simp [aset, alookup, h]
    · by_cases hk' : k' = k0 <;> simp [aset, alookup, hk, hk', ih]

theorem alookup_aset {κ α : Type} [DecidableEq κ] (m : List (κ × α)) (k k' : κ) (v : α) :
    alookup (aset m k v) k' = if k' = k then some v else alookup m k' := by
  by_cases h : k' = k
  · subst h; simp [alookup_aset_self]
  · simp [h, alookup_aset_ne m k k' v h]

theorem alookup_aset_isSome {κ α : Type} [DecidableEq κ] (m : List (κ × α)) (k k' : κ) (v : α)
    (h : (alookup m k').isSome = true) : (alookup (aset m k v) k').isSome = true := by
  rw [alookup_aset]
  by_cases hk : k' = k <;> simp [hk, h]

theorem alookup_isSome_iff_mem_keys {κ α : Type} [DecidableEq κ] (m : List (κ × α)) (k : κ) :
    (alookup m k).isSome = true ↔ k ∈ m.map Prod.fst := by
  induction m with
  | nil => simp [alookup]
  | cons kv rest ih =>
    obtain ⟨k0, v0⟩ := kv
    by_cases hk : k = k0 <;> simp [alookup, hk, ih]

theorem alookup_foldl_aset_notmem {κ α : Type} [DecidableEq κ] (b : List (κ × α)) :
    ∀ (s : List (κ × α)) (k : κ), (∀ kv ∈ b, kv.1 ≠ k) →
    alookup (b.foldl (fun s kv => aset s kv.1 kv.2) s) k = alookup s k := by
  induction b with
  | nil => intro s k _; rfl
  | cons kv rest ih =>
    intro s k hne
    simp only [List.foldl_cons]
    rw [ih _ k (fun kv h => hne kv (List.mem_cons_of_mem _ h))]
    exact alookup_aset_ne s kv.1 k kv.2 (fun h => hne kv (List.mem_cons_self _ _) h.symm)

theorem alookup_foldl_aset_some {κ α : Type} [DecidableEq κ] (m : List (κ × α)) :
    ∀ (base : List (κ × α)) (k : κ) (v : α), (m.map Prod.fst).Nodup →
    alookup m k = some v →
    alookup (m.foldl (fun acc kv => aset acc kv.1 kv.2) base) k = some v := by
  induction m with
  | nil => intro base k v _ h; simp [alookup] at h
  | cons kv rest ih =>
    intro base k v hnd hlk
    simp only [List.map_cons, List.nodup_cons] at hnd
    simp only [alookup] at hlk
    simp only [List.foldl_cons]
    by_cases hk : k = kv.1
    · subst hk
      simp only [if_pos rfl] at hlk
      obtain rfl : kv.2 = v := by injection hlk
      rw [alookup_foldl_aset_notmem rest _ kv.1
        (fun p hp h => hnd.1 (h ▸ List.mem_map_of_mem Prod.fst hp))]
      exact alookup_aset_self base kv.1 kv.2
    · rw [if_neg ?_] at hlk
      · exact ih _ k v hnd.2 hlk
      · exact hk

theorem alookup_foldl_aset_none {κ α : Type} [DecidableEq κ] (m : List (κ × α)) :
    ∀ (base : List (κ × α)) (k : κ), alookup m k = none →
    alookup (m.foldl (fun acc kv => aset acc kv.1 kv.2) base) k = alookup base k := by
  induction m with
  | nil => intro base k _; rfl
  | cons kv rest ih =>
    intro base k hlk
    simp only [alookup] at hlk
    by_cases hk : k = kv.1
    · simp [hk] at hlk
    · rw [if_neg hk] at hlk
      simp only [List.foldl_cons]
      rw [ih _ k hlk]
      exact alookup_aset_ne base kv.1 k kv.2 hk

theorem aset_map_fst {κ α : Type} [DecidableEq κ] (m : List (κ × α)) (k : κ) (v : α) :
    (aset m k v).map Prod.fst =
      if k ∈ m.map Prod.fst then m.map Prod.fst else m.map Prod.fst ++ [k] := by
  induction m with
  | nil => simp [aset]
  | cons kv rest ih =>
    obtain ⟨k0, v0⟩ := kv
    by_cases hk : k = k0
    · simp [aset, hk]
    · by_cases hmem : k ∈ rest.map Prod.fst <;>
        simp [aset, hk, hmem, ih, Ne.symm hk]

theorem aset_keys_nodup {κ α : Type} [DecidableEq κ] (m : List (κ × α)) (k : κ) (v : α)
    (h : (m.map Prod.fst).Nodup) : ((aset m k v).map Prod.fst).Nodup := by
  rw [aset_map_fst]
  by_cases hmem : k ∈ m.map Prod.fst
  · simpa [hmem] using h
  · simp [hmem, List.nodup_append, h]

/-! ### Arithmetic helpers about indices -/

theorem sibOf_ne (n : Nat) : sibOf n ≠ n := by
  unfold sibOf; split <;> omega

theorem sibOf_div (n : Nat) : sibOf n / 2 = n / 2 := by
  unfold sibOf; split <;> omega

theorem anc_succ (i h : Nat) : anc i (h + 1) = anc i h / 2 := rfl

theorem anc_eq_div (i : Nat) : ∀ h, anc i h = i / 2 ^ h := by
  intro h
  induction h with
  | zero => simp [anc]
  | succ h ih =>
    rw [anc_succ, ih, Nat.div_div_eq_div_mul, pow_succ]

theorem anc_eq_zero_of_lt {i d : Nat} (h : i < 2 ^ d) : anc i d = 0 := by
  rw [anc_eq_div]
  exact Nat.div_eq_of_lt h

theorem anc_child_cases (i h : Nat) :
    (anc i h % 2 = 1 ∧ anc i h = 2 * anc i (h + 1) + 1 ∧ sibOf (anc i h) = 2 * anc i (h + 1))
    ∨ (anc i h % 2 = 0 ∧ anc i h = 2 * anc i (h + 1) ∧ sibOf (anc i h) = 2 * anc i (h + 1) + 1) := by
  rw [anc_succ]
  unfold sibOf
  rcases Nat.even_or_odd (anc i h) with he | ho
  · right
    obtain ⟨m, hm⟩ := he
    constructor
    · omega
    · constructor <;> [skip; rw [if_neg (by omega)]] <;> omega
  · left
    obtain ⟨m, hm⟩ := ho
    constructor
    · omega
    · constructor <;> [skip; rw [if_pos (by omega)]] <;> omega

/-! ### Semantic node map lemmas -/

theorem nodeVal_aset_cache (t : MerkleTree) (k k' : NodeKey) (v : Digest) :
    nodeVal { t with cache := aset t.cache k v } k' =
      if k' = k then v else nodeVal t k' := by
  unfold nodeVal
  by_cases hk : k' = k
  · simp [hk, alookup_aset_self]
  · simp [hk, alookup_aset_ne t.cache k k' v hk]

theorem getNode_fst (t : MerkleTree) (i h : Nat) : (getNode t i h).1 = nodeVal t (h, i) := by
  unfold getNode nodeVal
  rcases hc : alookup t.cache (h, i) with _ | v
  · rcases hs : alookup t.store (h, i) with _ | w <;> simp [hc, hs]
  · simp [hc]

theorem getNode_nodeVal (t : MerkleTree) (i h : Nat) (k : NodeKey) :
    nodeVal (getNode t i h).2 k = nodeVal t k := by
  unfold getNode
  rcases hc : alookup t.cache (h, i) with _ | v
  · rcases hs : alookup t.store (h, i) with _ | w
    · simp only
      rw [nodeVal_aset_cache]
      by_cases hk : k = (h, i)
      · subst hk; simp [nodeVal, hc, hs]
      · simp [hk]
    · simp only
      rw [nodeVal_aset_cache]
      by_cases hk : k = (h, i)
      · subst hk; simp [nodeVal, hc, hs]
      · simp [hk]
  · simp

theorem getNode_store (t : MerkleTree) (i h : Nat) : (getNode t i h).2.store = t.store := by
  unfold getNode
  rcases hc : alookup t.cache (h, i) with _ | v
  · rcases hs : alookup t.store (h, i) with _ | w <;> simp [hc, hs]
  · simp [hc]

theorem getNode_root (t : MerkleTree) (i h : Nat) : (getNode t i h).2.root = t.root := by
  unfold getNode
  rcases hc : alookup t.cache (h, i) with _ | v
  · rcases hs : alookup t.store (h, i) with _ | w <;> simp [hc, hs]
  · simp [hc]

theorem getNode_depth (t : MerkleTree) (i h : Nat) : (getNode t i h).2.depth = t.depth := by
  unfold getNode
  rcases hc : alookup t.cache (h, i) with _ | v
  · rcases hs : alookup t.store (h, i) with _ | w <;> simp [hc, hs]
  · simp [hc]

theorem getNode_meta (t : MerkleTree) (i h : Nat) : (getNode t i h).2.meta = t.meta := by
  unfold getNode
  rcases hc : alookup t.cache (h, i) with _ | v
  · rcases hs : alookup t.store (h, i) with _ | w <;> simp [hc, hs]
  · simp [hc]

theorem getNode_cache_isSome (t : MerkleTree) (i h : Nat) (k : NodeKey)
    (hk : (alookup t.cache k).isSome = true) :
    (alookup (getNode t i h).2.cache k).isSome = true := by
  unfold getNode
  rcases hc : alookup t.cache (h, i) with _ | v
  · rcases hs : alookup t.store (h, i) with _ | w <;>
      simp [hc, hs, alookup_aset_isSome _ _ _ _ hk]
  · simpa [hc] using hk

theorem getNode_cache_self (t : MerkleTree) (i h : Nat) :
    alookup (getNode t i h).2.cache (h, i) = some (nodeVal t (h, i)) := by
  unfold getNode nodeVal
  rcases hc : alookup t.cache (h, i) with _ | v
  · rcases hs : alookup t.store (h, i) with _ | w <;> simp [hc, hs, alookup_aset_self]
  · simp [hc]

/-! ### Commit lemmas -/

theorem commitBatch_cache (t : MerkleTree) (b : Batch) : (commitBatch t b).cache = t.cache := rfl

theorem commitBatch_root (t : MerkleTree) (b : Batch) : (commitBatch t b).root = t.root := rfl

theorem commitBatch_depth (t : MerkleTree) (b : Batch) : (commitBatch t b).depth = t.depth := rfl

theorem commitBatch_meta (t : MerkleTree) (b : Batch) :
    (commitBatch t b).meta = some (t.root, t.depth) := rfl

theorem commitBatch_nodeVal (t : MerkleTree) (b : Batch)
    (hb : ∀ kv ∈ b, (alookup t.cache kv.1).isSome = true) (k : NodeKey) :
    nodeVal (commitBatch t b) k = nodeVal t k := by
  unfold nodeVal commitBatch
  rcases hc : alookup t.cache k with _ | v
  · simp only
    rw [alookup_foldl_aset_notmem b t.store k ?_]
    intro kv hkv hk
    have := hb kv hkv
    rw [hk, hc] at this
    simp at this
  · simp [hc]

/-! ### The single-update ascent loop -/

theorem pathVal_succ (V : NodeKey → Digest) (i₀ : Nat) (d : Digest) (h : Nat) :
    pathVal V i₀ d (h + 1) =
      if anc i₀ h % 2 = 1 then
        Sha256Hasher.compress (V (h, sibOf (anc i₀ h))) (pathVal V i₀ d h)
      else
        Sha256Hasher.compress (pathVal V i₀ d h) (V (h, sibOf (anc i₀ h))) := rfl

theorem updateLoop_succ (t : MerkleTree) (b : Batch) (idx : Nat) (v : Digest) (h fuel : Nat) :
    updateLoop t b idx v h (fuel + 1) =
      updateLoop
        (updateNode (getNode t (sibOf idx) h).2 (idx / 2) (h + 1)
          (if idx % 2 = 1 then Sha256Hasher.compress (getNode t (sibOf idx) h).1 v
           else Sha256Hasher.compress v (getNode t (sibOf idx) h).1) b).1
        (updateNode (getNode t (sibOf idx) h).2 (idx / 2) (h + 1)
          (if idx % 2 = 1 then Sha256Hasher.compress (getNode t (sibOf idx) h).1 v
           else Sha256Hasher.compress v (getNode t (sibOf idx) h).1) b).2
        (idx / 2)
        (if idx % 2 = 1 then Sha256Hasher.compress (getNode t (sibOf idx) h).1 v
         else Sha256Hasher.compress v (getNode t (sibOf idx) h).1)
        (h + 1) fuel := rfl

theorem pathOverrideP_succ_ne (V : NodeKey → Digest) (i₀ : Nat) (d : Digest) (h : Nat)
    (k : NodeKey) (hk : k ≠ (h + 1, anc i₀ (h + 1))) :
    pathOverrideP V i₀ d h k = pathOverrideP V i₀ d (h + 1) k := by
  unfold pathOverrideP
  by_cases ha : anc i₀ k.1 = k.2
  · by_cases hle : k.1 ≤ h
    · rw [if_pos ⟨hle, ha⟩, if_pos ⟨by omega, ha⟩]
    · rw [if_neg (fun hc => hle hc.1), if_neg]
      intro hc
      apply hk
      have h1 : k.1 = h + 1 := by omega
      have h2 : k.2 = anc i₀ (h + 1) := by rw [← ha, h1]
      exact Prod.ext h1 h2
  · rw [if_neg (fun hc => ha hc.2), if_neg (fun hc => ha hc.2)]

theorem pathOverrideP_self (V : NodeKey → Digest) (i₀ : Nat) (d : Digest) (hmax h : Nat)
    (hle : h ≤ hmax) : pathOverrideP V i₀ d hmax (h, anc i₀ h) = pathVal V i₀ d h := by
  unfold pathOverrideP
  rw [if_pos ⟨hle, rfl⟩]

theorem pathOverrideP_sib (V : NodeKey → Digest) (i₀ : Nat) (d : Digest) (hmax h : Nat) :
    pathOverrideP V i₀ d hmax (h, sibOf (anc i₀ h)) = V (h, sibOf (anc i₀ h)) := by
  unfold pathOverrideP
  rw [if_neg]
  intro hc
  exact sibOf_ne (anc i₀ h) hc.2.symm

theorem updateLoop_spec (V : NodeKey → Digest) (i₀ : Nat) (d : Digest) :
    ∀ (fuel h : Nat) (t : MerkleTree) (b : Batch),
    (∀ k, nodeVal t k = pathOverrideP V i₀ d h k) →
    (∀ kv ∈ b, (alookup t.cache kv.1).isSome = true) →
    ∀ tf bf r, updateLoop t b (anc i₀ h) (pathVal V i₀ d h) h fuel = (tf, bf, r) →
      r = pathVal V i₀ d (h + fuel)
      ∧ (∀ k, nodeVal tf k = pathOverrideP V i₀ d (h + fuel) k)
      ∧ (∀ kv ∈ bf, (alookup tf.cache kv.1).isSome = true)
      ∧ (∃ ext, bf = b ++ ext ∧ ∀ kv ∈ ext, h < kv.1.1)
      ∧ tf.store = t.store ∧ tf.root = t.root ∧ tf.depth = t.depth ∧ tf.meta = t.meta := by
  intro fuel
  induction fuel with
  | zero =>
    intro h t b hV hb tf bf r heq
    simp only [updateLoop, Prod.mk.injEq] at heq
    obtain ⟨rfl, rfl, rfl⟩ := heq
    exact ⟨rfl, hV, hb, ⟨[], by simp, by simp⟩, rfl, rfl, rfl, rfl⟩
  | succ fuel ih =>
    intro h t b hV hb tf bf r heq
    rw [updateLoop_succ] at heq
    have hpairval : (getNode t (sibOf (anc i₀ h)) h).1 = V (h, sibOf (anc i₀ h)) := by
      rw [getNode_fst, hV, pathOverrideP_sib]
    have hv' : (if anc i₀ h % 2 = 1 then
          Sha256Hasher.compress (getNode t (sibOf (anc i₀ h)) h).1 (pathVal V i₀ d h)
        else Sha256Hasher.compress (pathVal V i₀ d h) (getNode t (sibOf (anc i₀ h)) h).1)
        = pathVal V i₀ d (h + 1) := by
      rw [hpairval]
      exact (pathVal_succ V i₀ d h).symm
    rw [hv'] at heq
    have hdiv : anc i₀ h / 2 = anc i₀ (h + 1) := rfl
    rw [hdiv] at heq
    simp only [updateNode] at heq
    -- the intermediate states
    have hV2 : ∀ k, nodeVal
        { (getNode t (sibOf (anc i₀ h)) h).2 with
          cache := aset (getNode t (sibOf (anc i₀ h)) h).2.cache
            (h + 1, anc i₀ (h + 1)) (pathVal V i₀ d (h + 1)) } k
        = pathOverrideP V i₀ d (h + 1) k := by
      intro k
      rw [nodeVal_aset_cache]
      by_cases hk : k = (h + 1, anc i₀ (h + 1))
      · subst hk
        rw [if_pos rfl, pathOverrideP_self]
        omega
      · rw [if_neg hk, getNode_nodeVal, hV, pathOverrideP_succ_ne V i₀ d h k hk]
    have hb2 : ∀ kv ∈ b ++ [((h + 1, anc i₀ (h + 1)), pathVal V i₀ d (h + 1))],
        (alookup
          (aset (getNode t (sibOf (anc i₀ h)) h).2.cache (h + 1, anc i₀ (h + 1))
            (pathVal V i₀ d (h + 1))) kv.1).isSome = true := by
      intro kv hkv
      rcases List.mem_append.mp hkv with hkv | hkv
      · exact alookup_aset_isSome _ _ _ _ (getNode_cache_isSome t _ h kv.1 (hb kv hkv))
      · simp only [List.mem_singleton] at hkv
        subst hkv
        simp [alookup_aset_self]
    obtain ⟨hr, hVf, hbf, hhts, hst, hrt, hdp, hmt⟩ := ih (h + 1) _ _ hV2 hb2 tf bf r heq
    have harith : h + 1 + fuel = h + (fuel + 1) := by omega
    rw [harith] at hr hVf
    refine ⟨hr, hVf, hbf, ?_, ?_, ?_, ?_, ?_⟩
    · obtain ⟨ext, hext, hextht⟩ := hhts
      refine ⟨((h + 1, anc i₀ (h + 1)), pathVal V i₀ d (h + 1)) :: ext, ?_, ?_⟩
      · rw [hext, List.append_assoc]
        rfl
      · intro kv hkv
        rcases List.mem_cons.mp hkv with hkv' | hkv'
        · subst hkv'
          show h < h + 1
          omega
        · have := hextht kv hkv'
          omega
    · rw [hst]; exact getNode_store t _ h
    · rw [hrt]; exact getNode_root t _ h
    · rw [hdp]; exact getNode_depth t _ h
    · rw [hmt]; exact getNode_meta t _ h

/-! ### Characterisation of `updateElement` -/

theorem updateElementPrepare_spec (t : MerkleTree) (i : Nat) (v : Bytes) :
    ∀ tp b r, updateElementPrepare t i v = (tp, b, r) →
      r = pathVal (nodeVal t) i (Sha256Hasher.hash v) t.depth
      ∧ (∀ k, nodeVal tp k = pathOverrideP (nodeVal t) i (Sha256Hasher.hash v) t.depth k)
      ∧ (∀ kv ∈ b, (alookup tp.cache kv.1).isSome = true)
      ∧ (∃ ext, b = [((0, i), Sha256Hasher.hash v)] ++ ext ∧ ∀ kv ∈ ext, 0 < kv.1.1)
      ∧ tp.store = t.store ∧ tp.root = r ∧ tp.depth = t.depth ∧ tp.meta = t.meta := by
  intro tp b r heq
  have hV1 : ∀ k, nodeVal { t with cache := aset t.cache (0, i) (Sha256Hasher.hash v) } k
      = pathOverrideP (nodeVal t) i (Sha256Hasher.hash v) 0 k := by
    intro k
    rw [nodeVal_aset_cache]
    unfold pathOverrideP
    by_cases hk : k = (0, i)
    · subst hk
      rw [if_pos rfl, if_pos ⟨Nat.le_refl 0, rfl⟩]
      rfl
    · rw [if_neg hk, if_neg]
      intro hc
      apply hk
      have h1 : k.1 = 0 := Nat.le_zero.mp hc.1
      have h2 : k.2 = i := by
        have := hc.2
        rw [h1] at this
        exact this.symm
      exact Prod.ext h1 h2
  have hb1 : ∀ kv ∈ [((0, i), Sha256Hasher.hash v)],
      (alookup (aset t.cache (0, i) (Sha256Hasher.hash v)) kv.1).isSome = true := by
    intro kv hkv
    simp only [List.mem_singleton] at hkv
    subst hkv
    simp [alookup_aset_self]
  obtain ⟨hr, hVf, hbf, hext, hst, hrt, hdp, hmt⟩ :=
    updateLoop_spec (nodeVal t) i (Sha256Hasher.hash v) t.depth 0
      { t with cache := aset t.cache (0, i) (Sha256Hasher.hash v) }
      [((0, i), Sha256Hasher.hash v)] hV1 hb1 _ _ _ rfl
  have hunfold : updateElementPrepare t i v =
      ({ (updateLoop { t with cache := aset t.cache (0, i) (Sha256Hasher.hash v) }
            [((0, i), Sha256Hasher.hash v)] i (Sha256Hasher.hash v) 0 t.depth).1 with
          root := (updateLoop { t with cache := aset t.cache (0, i) (Sha256Hasher.hash v) }
            [((0, i), Sha256Hasher.hash v)] i (Sha256Hasher.hash v) 0 t.depth).2.2 },
        (updateLoop { t with cache := aset t.cache (0, i) (Sha256Hasher.hash v) }
            [((0, i), Sha256Hasher.hash v)] i (Sha256Hasher.hash v) 0 t.depth).2.1,
        (updateLoop { t with cache := aset t.cache (0, i) (Sha256Hasher.hash v) }
            [((0, i), Sha256Hasher.hash v)] i (Sha256Hasher.hash v) 0 t.depth).2.2) := rfl
  rw [hunfold, Prod.mk.injEq, Prod.mk.injEq] at heq
  obtain ⟨htp, hb, hrr⟩ := heq
  subst htp
  subst hb
  subst hrr
  simp only [Nat.zero_add] at hr hVf
  refine ⟨hr, hVf, hbf, ?_, hst, rfl, hdp, hmt⟩
  obtain ⟨ext, hext1, hext2⟩ := hext
  exact ⟨ext, hext1, fun kv hkv => hext2 kv hkv⟩

theorem updateElement_spec (t : MerkleTree) (i : Nat) (v : Bytes) :
    ∀ tc rc, updateElement t i v = (tc, rc) →
      rc = pathVal (nodeVal t) i (Sha256Hasher.hash v) t.depth
      ∧ (∀ k, nodeVal tc k = pathOverrideP (nodeVal t) i (Sha256Hasher.hash v) t.depth k)
      ∧ tc.depth = t.depth ∧ tc.root = rc ∧ tc.meta = some (rc, t.depth)
      ∧ tc.cache = (updateElementPrepare t i v).1.cache
      ∧ alookup tc.store (0, i) = some (Sha256Hasher.hash v) := by
  intro tc rc heq
  obtain ⟨hr, hVp, hbp, hext, hst, hrt, hdp, hmt⟩ :=
    updateElementPrepare_spec t i v (updateElementPrepare t i v).1
      (updateElementPrepare t i v).2.1 (updateElementPrepare t i v).2.2 rfl
  have hunfold : updateElement t i v =
      (commitBatch (updateElementPrepare t i v).1 (updateElementPrepare t i v).2.1,
       (updateElementPrepare t i v).2.2) := rfl
  rw [hunfold, Prod.mk.injEq] at heq
  obtain ⟨htc, hrc⟩ := heq
  subst htc
  subst hrc
  refine ⟨hr, ?_, ?_, ?_, ?_, ?_, ?_⟩
  · intro k
    rw [commitBatch_nodeVal _ _ hbp k]
    exact hVp k
  · rw [commitBatch_depth]
    exact hdp
  · rw [commitBatch_root]
    exact hrt
  · rw [commitBatch_meta, hrt, hdp]
  · rfl
  · show alookup ((updateElementPrepare t i v).2.1.foldl
      (fun s kv => aset s kv.1 kv.2) (updateElementPrepare t i v).1.store) (0, i)
      = some (Sha256Hasher.hash v)
    obtain ⟨ext, hb1, hb2⟩ := hext
    rw [hb1, List.foldl_append]
    rw [alookup_foldl_aset_notmem ext _ (0, i) ?_]
    · simp only [List.foldl_cons, List.foldl_nil]
      exact alookup_aset_self _ _ _
    · intro kv hkv hk
      have := hb2 kv hkv
      rw [hk] at this
      simp at this

/-! ### Characterisation of `getHashPath` -/

theorem anc_div_two (i : Nat) : ∀ j, anc (i / 2) j = anc i (j + 1) := by
  intro j
  induction j with
  | zero => rfl
  | succ j ih =>
    rw [anc_succ, ih]
    rfl

theorem hashPathLoop_succ (t : MerkleTree) (idx h fuel : Nat) :
    hashPathLoop t idx h (fuel + 1) =
      ((if idx % 2 = 1 then
          ((getNode t (sibOf idx) h).1, (getNode (getNode t (sibOf idx) h).2 idx h).1)
        else
          ((getNode (getNode t (sibOf idx) h).2 idx h).1, (getNode t (sibOf idx) h).1)) ::
        (hashPathLoop (getNode (getNode t (sibOf idx) h).2 idx h).2 (idx / 2) (h + 1) fuel).1,
       (hashPathLoop (getNode (getNode t (sibOf idx) h).2 idx h).2 (idx / 2) (h + 1) fuel).2) := rfl

theorem hashPathLoop_spec : ∀ (fuel : Nat) (t : MerkleTree) (idx h : Nat),
    (hashPathLoop t idx h fuel).1 = (List.range fuel).map (fun j =>
      if anc idx j % 2 = 1 then
        (nodeVal t (h + j, sibOf (anc idx j)), nodeVal t (h + j, anc idx j))
      else
        (nodeVal t (h + j, anc idx j), nodeVal t (h + j, sibOf (anc idx j))))
    ∧ ∀ k, nodeVal (hashPathLoop t idx h fuel).2 k = nodeVal t k := by
  intro fuel
  induction fuel with
  | zero =>
    intro t idx h
    exact ⟨by simp [hashPathLoop], fun k => rfl⟩
  | succ fuel ih =>
    intro t idx h
    rw [hashPathLoop_succ]
    obtain ⟨ih1, ih2⟩ := ih (getNode (getNode t (sibOf idx) h).2 idx h).2 (idx / 2) (h + 1)
    constructor
    · rw [List.range_succ_eq_map, List.map_cons, List.map_map]
      simp only
      congr 1
      · simp [getNode_fst, getNode_nodeVal, anc]
      · rw [ih1]
        apply List.map_congr_left
        intro j hj
        have hnv : ∀ k, nodeVal (getNode (getNode t (sibOf idx) h).2 idx h).2 k = nodeVal t k := by
          intro k
          rw [getNode_nodeVal, getNode_nodeVal]
        have hh : h + 1 + j = h + (j + 1) := by omega
        simp only [Function.comp_apply, hnv, anc_div_two, hh]
    · intro k
      rw [ih2 k, getNode_nodeVal, getNode_nodeVal]

theorem sibOf_eq_xor (n : Nat) : sibOf n = n ^^^ 1 := by
  apply Nat.eq_of_testBit_eq
  intro j
  cases j with
  | zero =>
    rw [Nat.testBit_xor]
    simp only [Nat.testBit_zero]
    unfold sibOf
    rcases Nat.even_or_odd n with he | ho
    · obtain ⟨m, hm⟩ := he
      rw [if_neg (by omega)]
      have h1 : (n + 1) % 2 = 1 := by omega
      have h2 : n % 2 = 0 := by omega
      simp [h1, h2]
    · obtain ⟨m, hm⟩ := ho
      rw [if_pos (by omega)]
      have h1 : (n - 1) % 2 = 0 := by omega
      have h2 : n % 2 = 1 := by omega
      simp [h1, h2]
  | succ j =>
    rw [Nat.testBit_xor]
    rw [Nat.testBit_succ, Nat.testBit_succ, Nat.testBit_succ]
    have hd : sibOf n / 2 = n / 2 := sibOf_div n
    have h1 : (1 : Nat) / 2 = 0 := by omega
    rw [hd, h1]
    simp [Nat.zero_testBit]

/-- Claim C5: for every index `i`, `getHashPath(i)` produces exactly `depth`
pairs in leaf-to-root order; at height `h` the current index is `i` halved
`h` times, the sibling index is its XOR with 1, and the emitted pair is
ordered `(left, right)` with the path's own node on the right iff the index
at that height is odd. -/
theorem c5_getHashPath_pairs (t : MerkleTree) (i : Nat) :
    (getHashPath t i).1.length = t.depth
    ∧ (getHashPath t i).1 = (List.range t.depth).map (fun h =>
        if anc i h % 2 = 1 then
          (nodeVal t (h, anc i h ^^^ 1), nodeVal t (h, anc i h))
        else
          (nodeVal t (h, anc i h), nodeVal t (h, anc i h ^^^ 1))) := by
  obtain ⟨h1, _⟩ := hashPathLoop_spec t.depth t i 0
  have hmain : (getHashPath t i).1 = (List.range t.depth).map (fun h =>
      if anc i h % 2 = 1 then
        (nodeVal t (h, anc i h ^^^ 1), nodeVal t (h, anc i h))
      else
        (nodeVal t (h, anc i h), nodeVal t (h, anc i h ^^^ 1))) := by
    show (hashPathLoop t i 0 t.depth).1 = _
    rw [h1]
    apply List.map_congr_left
    intro j hj
    simp only [Nat.zero_add, sibOf_eq_xor]
  refine ⟨?_, hmain⟩
  rw [hmain, List.length_map, List.length_range]

/-! ### Replaying a hash path -/

theorem replayPath_spec (V : NodeKey → Digest) (i : Nat) (d : Digest)
    (P : Nat → Digest × Digest)
    (hP : ∀ g, (anc i g % 2 = 1 → (P g).1 = V (g, sibOf (anc i g)))
             ∧ (anc i g % 2 ≠ 1 → (P g).2 = V (g, sibOf (anc i g)))) :
    ∀ (n h : Nat),
      replayPath (anc i h) (pathVal V i d h) ((List.range n).map (fun j => P (h + j)))
        = pathVal V i d (h + n) := by
  intro n
  induction n with
  | zero =>
    intro h
    simp [replayPath]
  | succ n ih =>
    intro h
    rw [List.range_succ_eq_map, List.map_cons, List.map_map]
    show replayPath (anc i h) (pathVal V i d h) ((P (h + 0)) :: _) = _
    have hstep : replayPath (anc i h) (pathVal V i d h) ((P (h + 0)) :: 
        ((List.range n).map ((fun j => P (h + j)) ∘ Nat.succ)))
        = replayPath (anc i h / 2)
            (if anc i h % 2 = 1 then Sha256Hasher.compress (P (h + 0)).1 (pathVal V i d h)
             else Sha256Hasher.compress (pathVal V i d h) (P (h + 0)).2)
            ((List.range n).map ((fun j => P (h + j)) ∘ Nat.succ)) := rfl
    rw [hstep]
    have hacc : (if anc i h % 2 = 1 then Sha256Hasher.compress (P (h + 0)).1 (pathVal V i d h)
        else Sha256Hasher.compress (pathVal V i d h) (P (h + 0)).2) = pathVal V i d (h + 1) := by
      rw [pathVal_succ]
      by_cases hodd : anc i h % 2 = 1
      · rw [if_pos hodd, if_pos hodd, Nat.add_zero, (hP h).1 hodd]
      · rw [if_neg hodd, if_neg hodd, Nat.add_zero, (hP h).2 hodd]
    rw [hacc]
    have hrest : (List.range n).map ((fun j => P (h + j)) ∘ Nat.succ)
        = (List.range n).map (fun j => P (h + 1 + j)) := by
      apply List.map_congr_left
      intro j hj
      simp only [Function.comp_apply]
      congr 1
      omega
    rw [hrest]
    have hidx : anc i h / 2 = anc i (h + 1) := rfl
    rw [hidx, ih (h + 1)]
    congr 1
    omega

/-- Claim C1: after `updateElement(index, value)` returns a root, replaying
the hash path returned by `getHashPath(index)` — starting from
`hash(value)`, compressing with each pair in leaf-to-root order and placing
the path's own node on the right iff the index at that height is odd —
reproduces exactly the root returned by `updateElement`. -/
theorem c1_update_then_replay_path (t : MerkleTree) (index : Nat) (value : Bytes) :
    replayPath index (Sha256Hasher.hash value)
      ((getHashPath (updateElement t index value).1 index).1)
      = (updateElement t index value).2 := by
  obtain ⟨hr, hV, hdp, _, _, _, _⟩ :=
    updateElement_spec t index value (updateElement t index value).1
      (updateElement t index value).2 rfl
  obtain ⟨hpath, _⟩ := hashPathLoop_spec (updateElement t index value).1.depth
    (updateElement t index value).1 index 0
  have hpath' : (getHashPath (updateElement t index value).1 index).1
      = (List.range t.depth).map (fun j =>
          if anc index j % 2 = 1 then
            (nodeVal (updateElement t index value).1 (0 + j, sibOf (anc index j)),
             nodeVal (updateElement t index value).1 (0 + j, anc index j))
          else
            (nodeVal (updateElement t index value).1 (0 + j, anc index j),
             nodeVal (updateElement t index value).1 (0 + j, sibOf (anc index j)))) := by
    show (hashPathLoop (updateElement t index value).1 index 0
      (updateElement t index value).1.depth).1 = _
    rw [hpath, hdp]
  rw [hpath', hr]
  have := replayPath_spec (nodeVal t) index (Sha256Hasher.hash value)
    (fun g => if anc index g % 2 = 1 then
        (nodeVal (updateElement t index value).1 (0 + g, sibOf (anc index g)),
         nodeVal (updateElement t index value).1 (0 + g, anc index g))
      else
        (nodeVal (updateElement t index value).1 (0 + g, anc index g),
         nodeVal (updateElement t index value).1 (0 + g, sibOf (anc index g))))
    ?_ t.depth 0
  · have h0 : anc index 0 = index := rfl
    rw [h0] at this
    have hp0 : pathVal (nodeVal t) index (Sha256Hasher.hash value) 0
        = Sha256Hasher.hash value := rfl
    rw [hp0] at this
    have hzn : (0 : Nat) + t.depth = t.depth := by omega
    rw [hzn] at this
    rw [← this]
    congr 1
    apply List.map_congr_left
    intro j hj
    simp only [Nat.zero_add]
  · intro g
    constructor
    · intro hodd
      simp only [if_pos hodd, Nat.zero_add]
      rw [hV, pathOverrideP_sib]
    · intro hodd
      simp only [if_neg hodd, Nat.zero_add]
      rw [hV, pathOverrideP_sib]

/-! ### Idempotence of `updateElement` -/

theorem pathVal_congr (V V' : NodeKey → Digest) (i : Nat) (d : Digest)
    (hagree : ∀ g, V' (g, sibOf (anc i g)) = V (g, sibOf (anc i g))) :
    ∀ h, pathVal V' i d h = pathVal V i d h := by
  intro h
  induction h with
  | zero => rfl
  | succ h ih => rw [pathVal_succ, pathVal_succ, ih, hagree h]

/-- Claim C9: `updateElement` is idempotent — applying the same
`(index, value)` twice in succession yields the same root both times. -/
theorem c9_updateElement_idempotent (t : MerkleTree) (index : Nat) (value : Bytes) :
    (updateElement (updateElement t index value).1 index value).2
      = (updateElement t index value).2 := by
  obtain ⟨hr1, hV1, hdp1, _, _, _, _⟩ :=
    updateElement_spec t index value (updateElement t index value).1
      (updateElement t index value).2 rfl
  obtain ⟨hr2, _, _, _, _, _, _⟩ :=
    updateElement_spec (updateElement t index value).1 index value
      (updateElement (updateElement t index value).1 index value).1
      (updateElement (updateElement t index value).1 index value).2 rfl
  rw [hr2, hdp1, hr1]
  apply pathVal_congr
  intro g
  rw [hV1, pathOverrideP_sib]

/-! ### Fresh construction, commit failure, read misses, empty updates -/

theorem getEmptyNodeHash_eq_spec : ∀ h, getEmptyNodeHash h = emptyHashSpec h := by
  intro h
  induction h with
  | zero => rfl
  | succ h ih =>
    show Sha256Hasher.compress (getEmptyNodeHash h) (getEmptyNodeHash h) = _
    rw [ih]
    rfl

/-- Claim C3: for every depth `d ∈ [1, 32]`, a freshly constructed tree (no
pre-existing metadata) has root `E[d]`, where `E[0] = hash(64 zero bytes)`
and `E[h] = compress(E[h-1], E[h-1])`. -/
theorem c3_fresh_root_is_empty_hash (s : NodeMap) (d : Nat) (h1 : 1 ≤ d) (h2 : d ≤ 32) :
    ∃ tr, treeNew s none d = Except.ok tr ∧ tr.root = emptyHashSpec d := by
  refine ⟨{ root := getEmptyNodeHash d, depth := d, cache := [], store := s,
            meta := some (getEmptyNodeHash d, d) }, ?_, getEmptyNodeHash_eq_spec d⟩
  show (match mkMerkleTree s none d none with
    | .ok tr => Except.ok { tr with meta := some (tr.root, tr.depth) }
    | .error e => Except.error e) = _
  unfold mkMerkleTree
  rw [if_pos ⟨h1, by unfold MAX_DEPTH; omega⟩]
  rfl

theorem c3_fresh_root_is_empty_hash_witness :
    1 ≤ 2 ∧ 2 ≤ 32
    ∧ ∃ tr, treeNew [] none 2 = Except.ok tr ∧ tr.root = emptyHashSpec 2 :=
  ⟨by omega, by omega, c3_fresh_root_is_empty_hash [] 2 (by omega) (by omega)⟩

/-- Claim C4: a failed batch commit surfaces to the caller with the
in-memory root and cache already mutated — the state of the instance right
before `batch.write()` (which is all that survives a failed atomic commit)
has the same root and cache as the successfully committed instance, while
its store and persisted metadata are still the old ones: nothing is rolled
back. -/
theorem c4_commit_failure_not_rolled_back (t : MerkleTree) (index : Nat) (value : Bytes) :
    (updateElementPrepare t index value).1.store = t.store
    ∧ (updateElementPrepare t index value).1.meta = t.meta
    ∧ (updateElementPrepare t index value).1.root = (updateElementPrepare t index value).2.2
    ∧ (updateElementPrepare t index value).1.cache = (updateElement t index value).1.cache
    ∧ (updateElementPrepare t index value).1.root = (updateElement t index value).1.root
    ∧ (updateElementPrepare t index value).2.2 = (updateElement t index value).2 := by
  obtain ⟨_, _, _, _, hst, hrt, _, hmt⟩ :=
    updateElementPrepare_spec t index value (updateElementPrepare t index value).1
      (updateElementPrepare t index value).2.1 (updateElementPrepare t index value).2.2 rfl
  exact ⟨hst, hmt, hrt, rfl, hrt, rfl⟩

/-- Claim C7: for a `(height, index)` node in neither the cache nor the
store, `getNode` does not fail: it returns the empty hash `E[height]` and
populates the cache with that default. -/
theorem c7_getNode_miss_defaults (t : MerkleTree) (index height : Nat)
    (hc : alookup t.cache (height, index) = none)
    (hs : alookup t.store (height, index) = none) :
    (getNode t index height).1 = getEmptyNodeHash height
    ∧ alookup (getNode t index height).2.cache (height, index)
        = some (getEmptyNodeHash height) := by
  unfold getNode
  rw [hc, hs]
  exact ⟨rfl, alookup_aset_self t.cache (height, index) (getEmptyNodeHash height)⟩

theorem c7_getNode_miss_defaults_witness :
    alookup (freshTree 1).cache (0, 0) = none
    ∧ alookup (freshTree 1).store (0, 0) = none
    ∧ ((getNode (freshTree 1) 0 0).1 = getEmptyNodeHash 0
       ∧ alookup (getNode (freshTree 1) 0 0).2.cache (0, 0) = some (getEmptyNodeHash 0)) :=
  ⟨rfl, rfl, c7_getNode_miss_defaults (freshTree 1) 0 0 rfl rfl⟩

/-- Claim C8: `updateElements([])` returns the current root unchanged and
performs no mutation whatsoever: the resulting instance (root, cache,
store and metadata included) is exactly the input instance. -/
theorem c8_updateElements_empty (t : MerkleTree) : updateElements t [] = (t, t.root) := rfl

/-! ### Metadata record round trip -/

/-- Claim C6: the metadata record is 40 bytes — root digest at offsets
0..32, depth as an unsigned 32-bit little-endian integer at offsets 32..36 —
and constructing a tree by a name with previously persisted metadata decodes
exactly what `writeMetaData` encoded, restoring the persisted
`(root, depth)`. -/
theorem c6_metadata_roundtrip (rootBytes : List Nat) (depth : Nat) (r : Digest) (s : NodeMap)
    (hlen : rootBytes.length = 32) (h1 : 1 ≤ depth) (h2 : depth ≤ 32) :
    (writeMetaDataBytes rootBytes depth).length = 40
    ∧ restoreMeta (writeMetaDataBytes rootBytes depth) = (rootBytes, depth)
    ∧ ∃ tr, treeNew s (some (r, depth)) 32 = Except.ok tr
        ∧ tr.root = r ∧ tr.depth = depth := by
  have hbc : bufferCopy rootBytes (bufferAlloc 40) = rootBytes ++ List.replicate 8 0 := by
    unfold bufferCopy bufferAlloc
    rw [List.length_replicate, List.take_of_length_le (by omega), hlen]
    norm_num
  have hw : writeMetaDataBytes rootBytes depth
      = rootBytes ++ [depth % 256, depth / 256 % 256, depth / 2 ^ 16 % 256, depth / 2 ^ 24 % 256]
        ++ List.replicate 4 0 := by
    unfold writeMetaDataBytes writeUInt32LEAt
    rw [hbc]
    have ht : (rootBytes ++ List.replicate 8 0).take 32 = rootBytes := by
      conv_lhs => rw [← hlen]
      exact List.take_left rootBytes _
    have hd : (rootBytes ++ List.replicate 8 0).drop (32 + 4) = List.replicate 4 0 := by
      have h36 : 32 + 4 = rootBytes.length + 4 := by omega
      rw [h36, List.drop_append]
      norm_num
    rw [ht, hd]
  have htake : (writeMetaDataBytes rootBytes depth).take 32 = rootBytes := by
    rw [hw, List.append_assoc]
    conv_lhs => rw [← hlen]
    exact List.take_left rootBytes _
  have hread : readUInt32LE (writeMetaDataBytes rootBytes depth) 32 = depth := by
    unfold readUInt32LE
    have hg : ∀ j, j < 4 →
        (writeMetaDataBytes rootBytes depth).getD (32 + j) 0
          = [depth % 256, depth / 256 % 256, depth / 2 ^ 16 % 256, depth / 2 ^ 24 % 256].getD j 0 := by
      intro j hj
      rw [hw, List.append_assoc, List.getD_append_right _ _ _ _ (by omega), hlen]
      rw [List.getD_append _ _ _ _ (by simp; omega)]
      congr 1
      omega
    have h0 := hg 0 (by omega)
    rw [Nat.add_zero] at h0
    have h1' := hg 1 (by omega)
    have h2' := hg 2 (by omega)
    have h3' := hg 3 (by omega)
    rw [h0, h1', h2', h3']
    simp only [List.getD_cons_zero, List.getD_cons_succ]
    have e16 : (2 : Nat) ^ 16 = 65536 := by norm_num
    have e24 : (2 : Nat) ^ 24 = 16777216 := by norm_num
    rw [e16, e24]
    omega
  refine ⟨?_, ?_, ?_⟩
  · rw [hw]
    simp [hlen]
  · unfold restoreMeta
    rw [htake, hread]
  · refine ⟨{ root := r, depth := depth, cache := [], store := s,
              meta := some (r, depth) }, ?_, rfl, rfl⟩
    show mkMerkleTree s (some (r, depth)) depth (some r) = _
    unfold mkMerkleTree
    rw [if_pos ⟨h1, by unfold MAX_DEPTH; omega⟩]
    rfl

theorem c6_metadata_roundtrip_witness :
    (List.replicate 32 7).length = 32 ∧ 1 ≤ 32 ∧ 32 ≤ 32
    ∧ ((writeMetaDataBytes (List.replicate 32 7) 32).length = 40
       ∧ restoreMeta (writeMetaDataBytes (List.replicate 32 7) 32) = (List.replicate 32 7, 32)
       ∧ ∃ tr, treeNew [] (some (Digest.hashOf [], 32)) 32 = Except.ok tr
           ∧ tr.root = Digest.hashOf [] ∧ tr.depth = 32) :=
  ⟨by simp, by omega, by omega,
   c6_metadata_roundtrip (List.replicate 32 7) 32 (Digest.hashOf []) [] (by simp)
     (by omega) (by omega)⟩

/-! ### No interface validation on updates -/

theorem foldl_invariant {α β : Type} (P : α → Prop) (f : α → β → α)
    (hstep : ∀ x b, P x → P (f x b)) :
    ∀ (l : List β) (a : α), P a → P (l.foldl f a) := by
  intro l
  induction l with
  | nil => intro a ha; exact ha
  | cons b rest ih =>
    intro a ha
    exact ih _ (hstep a b ha)

theorem idxStep_depth (h : Nat) (p : NodeMap) (st : MerkleTree × Batch × NodeMap) (i : Nat) :
    (idxStep h p st i).1.depth = st.1.depth := by
  unfold idxStep
  rcases hc : alookup p (h, i) with _ | v <;>
    rcases hs : alookup p (h, sibOf i) with _ | w <;>
      simp [hc, hs, updateNode, getNode_depth]

theorem heightStep_depth (c : BatchCtx) (h : Nat) : (heightStep c h).t.depth = c.t.depth := by
  show ((dedupFirst (pendKeysAt c.pend h)).foldl (idxStep h c.pend) (c.t, c.b, [])).1.depth
    = c.t.depth
  refine foldl_invariant (fun st => st.1.depth = c.t.depth) (idxStep h c.pend) ?_
    (dedupFirst (pendKeysAt c.pend h)) (c.t, c.b, []) rfl
  intro x b hx
  exact (idxStep_depth h c.pend x b).trans hx

theorem updateElements_ctx_depth (t : MerkleTree) (us : List (Nat × Bytes)) (l : List Nat) :
    (l.foldl heightStep (us.foldl elemStep ⟨t, [], []⟩)).t.depth = t.depth := by
  have h1 : (us.foldl elemStep ⟨t, [], []⟩).t.depth = t.depth := by
    refine foldl_invariant (fun c => c.t.depth = t.depth) elemStep ?_ us ⟨t, [], []⟩ rfl
    intro x b hx
    exact hx
  refine foldl_invariant (fun c => c.t.depth = t.depth) heightStep ?_ l
    (us.foldl elemStep ⟨t, [], []⟩) h1
  intro x b hx
  exact (heightStep_depth x b).trans hx

theorem updateElements_meta (t : MerkleTree) (us : List (Nat × Bytes)) (hne : us ≠ []) :
    (updateElements t us).1.meta = some ((updateElements t us).2, t.depth) := by
  match us with
  | [] => exact absurd rfl hne
  | u :: rest =>
    show (commitBatch _ _).meta = _
    rw [commitBatch_meta]
    show some (_, ((List.range t.depth).foldl heightStep
      ((u :: rest).foldl elemStep ⟨t, [], []⟩)).t.depth) = _
    rw [updateElements_ctx_depth]
    rfl

/-- Claim C10 counterexample: the claim asserts every update "commits an
update that changes the root"; on a fresh depth-1 tree, `updateElements`
with the out-of-range index 2 completes but leaves both the returned and the
stored root exactly equal to the previous root. -/
theorem c10_counterexample_root_unchanged :
    (updateElements (freshTree 1) [(2, [1])]).2 = (freshTree 1).root
    ∧ (updateElements (freshTree 1) [(2, [1])]).1.root = (freshTree 1).root := by
  constructor <;> decide


/-! ### The recomputed node map `newVal` -/

theorem touched_iff (f : List (Nat × Digest)) (h i : Nat) :
    touched f h i = true ↔ ∃ p ∈ f, anc p.1 h = i := by
  unfold touched
  rw [List.any_eq_true]
  constructor
  · rintro ⟨p, hp, hbe⟩
    exact ⟨p, hp, by simpa using hbe⟩
  · rintro ⟨p, hp, he⟩
    exact ⟨p, hp, by simpa using he⟩

theorem touched_false_iff (f : List (Nat × Digest)) (h i : Nat) :
    touched f h i = false ↔ ∀ p ∈ f, anc p.1 h ≠ i := by
  rw [← Bool.not_eq_true, touched_iff]
  push_neg
  rfl

theorem touched_cons (q : Nat × Digest) (f : List (Nat × Digest)) (h i : Nat) :
    touched (q :: f) h i = (touched [q] h i || touched f h i) := by
  simp [touched]

theorem touched_single_iff (i₀ : Nat) (d : Digest) (h i : Nat) :
    touched [(i₀, d)] h i = true ↔ anc i₀ h = i := by
  rw [touched_iff]
  constructor
  · rintro ⟨p, hp, he⟩
    simp only [List.mem_singleton] at hp
    subst hp
    exact he
  · intro he
    exact ⟨(i₀, d), List.mem_singleton_self _, he⟩

theorem touched_single_false (i₀ : Nat) (d : Digest) (h i : Nat) (hne : anc i₀ h ≠ i) :
    touched [(i₀, d)] h i = false := by
  rw [touched_false_iff]
  intro p hp
  simp only [List.mem_singleton] at hp
  subst hp
  exact hne

theorem touched_up (f : List (Nat × Digest)) (h i : Nat) (ht : touched f h i = true) :
    touched f (h + 1) (i / 2) = true := by
  obtain ⟨p, hp, he⟩ := (touched_iff f h i).mp ht
  exact (touched_iff f (h + 1) (i / 2)).mpr ⟨p, hp, by rw [anc_succ, he]⟩

theorem touched_child_left (f : List (Nat × Digest)) (h i : Nat)
    (ht : touched f (h + 1) i = false) : touched f h (2 * i) = false := by
  cases hb : touched f h (2 * i) with
  | false => rfl
  | true =>
    have := touched_up f h (2 * i) hb
    rw [show 2 * i / 2 = i by omega, ht] at this
    exact absurd this (by simp)

theorem touched_child_right (f : List (Nat × Digest)) (h i : Nat)
    (ht : touched f (h + 1) i = false) : touched f h (2 * i + 1) = false := by
  cases hb : touched f h (2 * i + 1) with
  | false => rfl
  | true =>
    have := touched_up f h (2 * i + 1) hb
    rw [show (2 * i + 1) / 2 = i by omega, ht] at this
    exact absurd this (by simp)

theorem touched_zero_isSome (f : List (Nat × Digest)) (i : Nat) :
    touched f 0 i = true ↔ (alookup f i).isSome = true := by
  rw [touched_iff, alookup_isSome_iff_mem_keys]
  constructor
  · rintro ⟨p, hp, he⟩
    exact he ▸ List.mem_map_of_mem Prod.fst hp
  · intro hm
    obtain ⟨p, hp, he⟩ := List.mem_map.mp hm
    exact ⟨p, hp, he⟩

theorem newVal_zero (V : NodeKey → Digest) (f : List (Nat × Digest)) (i : Nat) :
    newVal V f 0 i = if touched f 0 i then (alookup f i).getD (V (0, i)) else V (0, i) := rfl

theorem newVal_succ (V : NodeKey → Digest) (f : List (Nat × Digest)) (h i : Nat) :
    newVal V f (h + 1) i =
      if touched f (h + 1) i then
        Sha256Hasher.compress (newVal V f h (2 * i)) (newVal V f h (2 * i + 1))
      else V (h + 1, i) := rfl

theorem newVal_untouched (V : NodeKey → Digest) (f : List (Nat × Digest)) (h i : Nat)
    (ht : touched f h i = false) : newVal V f h i = V (h, i) := by
  cases h with
  | zero => rw [newVal_zero, ht]; rfl
  | succ h => rw [newVal_succ, ht]; rfl

theorem newVal_single (V : NodeKey → Digest) (i₀ : Nat) (d : Digest) :
    ∀ h, newVal V [(i₀, d)] h (anc i₀ h) = pathVal V i₀ d h := by
  intro h
  induction h with
  | zero =>
    rw [newVal_zero, if_pos ((touched_single_iff i₀ d 0 (anc i₀ 0)).mpr rfl)]
    show (alookup [(i₀, d)] i₀).getD _ = d
    simp [alookup]
  | succ h ih =>
    rw [newVal_succ,
      if_pos ((touched_single_iff i₀ d (h + 1) (anc i₀ (h + 1))).mpr rfl), pathVal_succ]
    rcases anc_child_cases i₀ h with ⟨hodd, heq, hsib⟩ | ⟨heven, heq, hsib⟩
    · rw [if_pos hodd]
      have hleft : newVal V [(i₀, d)] h (2 * anc i₀ (h + 1)) = V (h, 2 * anc i₀ (h + 1)) :=
        newVal_untouched V _ h _ (touched_single_false i₀ d h _ (by omega))
      have hright : newVal V [(i₀, d)] h (2 * anc i₀ (h + 1) + 1) = pathVal V i₀ d h := by
        rw [← heq]
        exact ih
      rw [hleft, hright, ← hsib]
    · rw [if_neg (by omega)]
      have hleft : newVal V [(i₀, d)] h (2 * anc i₀ (h + 1)) = pathVal V i₀ d h := by
        rw [← heq]
        exact ih
      have hright : newVal V [(i₀, d)] h (2 * anc i₀ (h + 1) + 1)
          = V (h, 2 * anc i₀ (h + 1) + 1) :=
        newVal_untouched V _ h _ (touched_single_false i₀ d h _ (by omega))
      rw [hleft, hright, ← hsib]

theorem newVal_cons_untouched_rest (V : NodeKey → Digest) (i₁ : Nat) (d₁ : Digest)
    (rest : List (Nat × Digest)) :
    ∀ h i, touched rest h i = false →
      newVal V ((i₁, d₁) :: rest) h i = newVal V [(i₁, d₁)] h i := by
  intro h
  induction h with
  | zero =>
    intro i hrt
    rw [newVal_zero, newVal_zero, touched_cons, hrt, Bool.or_false]
    by_cases hc : touched [(i₁, d₁)] 0 i = true
    · rw [if_pos hc, if_pos hc]
      have hii : i₁ = i := (touched_single_iff i₁ d₁ 0 i).mp hc
      subst hii
      show (alookup ((i₁, d₁) :: rest) i₁).getD _ = (alookup [(i₁, d₁)] i₁).getD _
      simp [alookup]
    · rw [if_neg hc, if_neg hc]
  | succ h ih =>
    intro i hrt
    have hch1 := touched_child_left rest h i hrt
    have hch2 := touched_child_right rest h i hrt
    rw [newVal_succ, newVal_succ, touched_cons, hrt, Bool.or_false]
    by_cases hi : touched [(i₁, d₁)] (h + 1) i = true
    · rw [if_pos hi, if_pos hi, ih (2 * i) hch1, ih (2 * i + 1) hch2]
    · rw [if_neg hi, if_neg hi]

theorem alookup_cons_ne {κ α : Type} [DecidableEq κ] (q : κ × α) (rest : List (κ × α)) (k : κ)
    (h : k ≠ q.1) : alookup (q :: rest) k = alookup rest k := by
  obtain ⟨k0, v0⟩ := q
  simp only [alookup]
  rw [if_neg h]

theorem newVal_cons (V : NodeKey → Digest) (i₁ : Nat) (d₁ : Digest) (rest : List (Nat × Digest))
    (depth : Nat) (hni : ∀ p ∈ rest, p.1 ≠ i₁) :
    ∀ h, h ≤ depth → ∀ i,
      newVal (pathOverrideP V i₁ d₁ depth) rest h i = newVal V ((i₁, d₁) :: rest) h i := by
  intro h
  induction h with
  | zero =>
    intro _ i
    rw [newVal_zero, newVal_zero, touched_cons]
    by_cases hrt : touched rest 0 i = true
    · have hor : (touched [(i₁, d₁)] 0 i || touched rest 0 i) = true := by
        rw [hrt]
        simp
      rw [if_pos hrt, if_pos hor]
      have hsome := (touched_zero_isSome rest i).mp hrt
      obtain ⟨w, hw⟩ := Option.isSome_iff_exists.mp hsome
      have hik : i ≠ i₁ := by
        have hmem : i ∈ rest.map Prod.fst := (alookup_isSome_iff_mem_keys rest i).mp hsome
        obtain ⟨p, hp, he⟩ := List.mem_map.mp hmem
        intro hcon
        exact hni p hp (by rw [he, hcon])
      rw [alookup_cons_ne (i₁, d₁) rest i hik, hw]
      rfl
    · have hrf : touched rest 0 i = false := by simpa using hrt
      rw [if_neg hrt]
      by_cases hi : i₁ = i
      · subst hi
        have hor : (touched [(i₁, d₁)] 0 i₁ || touched rest 0 i₁) = true := by
          rw [(touched_single_iff i₁ d₁ 0 i₁).mpr rfl]
          simp
        rw [if_pos hor]
        have hself : pathOverrideP V i₁ d₁ depth (0, i₁) = pathVal V i₁ d₁ 0 :=
          pathOverrideP_self V i₁ d₁ depth 0 (Nat.zero_le depth)
        rw [hself]
        show d₁ = (alookup ((i₁, d₁) :: rest) i₁).getD (V (0, i₁))
        simp [alookup]
      · have hor : (touched [(i₁, d₁)] 0 i || touched rest 0 i) = false := by
          rw [touched_single_false i₁ d₁ 0 i (fun hc => hi hc), hrf]
          rfl
        rw [if_neg (by rw [hor]; simp)]
        unfold pathOverrideP
        rw [if_neg]
        intro hc
        exact hi hc.2
  | succ h ih =>
    intro hle i
    have ihh := ih (by omega)
    rw [newVal_succ, newVal_succ, touched_cons]
    by_cases hrt : touched rest (h + 1) i = true
    · have hor : (touched [(i₁, d₁)] (h + 1) i || touched rest (h + 1) i) = true := by
        rw [hrt]
        simp
      rw [if_pos hrt, if_pos hor, ihh (2 * i), ihh (2 * i + 1)]
    · have hrf : touched rest (h + 1) i = false := by simpa using hrt
      rw [if_neg hrt]
      by_cases hi : anc i₁ (h + 1) = i
      · have hor : (touched [(i₁, d₁)] (h + 1) i || touched rest (h + 1) i) = true := by
          rw [(touched_single_iff i₁ d₁ (h + 1) i).mpr hi]
          simp
        rw [if_pos hor]
        have hch1 := touched_child_left rest h i hrf
        have hch2 := touched_child_right rest h i hrf
        rw [newVal_cons_untouched_rest V i₁ d₁ rest h (2 * i) hch1,
            newVal_cons_untouched_rest V i₁ d₁ rest h (2 * i + 1) hch2]
        subst hi
        rw [pathOverrideP_self V i₁ d₁ depth (h + 1) hle, pathVal_succ]
        rcases anc_child_cases i₁ h with ⟨hodd, heq, hsib⟩ | ⟨heven, heq, hsib⟩
        · rw [if_pos hodd, hsib]
          have hleft : newVal V [(i₁, d₁)] h (2 * anc i₁ (h + 1))
              = V (h, 2 * anc i₁ (h + 1)) :=
            newVal_untouched V _ h _ (touched_single_false i₁ d₁ h _ (by omega))
          have hright : newVal V [(i₁, d₁)] h (2 * anc i₁ (h + 1) + 1)
              = pathVal V i₁ d₁ h := by
            rw [← heq]
            exact newVal_single V i₁ d₁ h
          rw [hleft, hright]
        · rw [if_neg (by omega), hsib]
          have hleft : newVal V [(i₁, d₁)] h (2 * anc i₁ (h + 1))
              = pathVal V i₁ d₁ h := by
            rw [← heq]
            exact newVal_single V i₁ d₁ h
          have hright : newVal V [(i₁, d₁)] h (2 * anc i₁ (h + 1) + 1)
              = V (h, 2 * anc i₁ (h + 1) + 1) :=
            newVal_untouched V _ h _ (touched_single_false i₁ d₁ h _ (by omega))
          rw [hleft, hright]
      · have hor : (touched [(i₁, d₁)] (h + 1) i || touched rest (h + 1) i) = false := by
          rw [touched_single_false i₁ d₁ (h + 1) i hi, hrf]
          rfl
        rw [if_neg (by rw [hor]; simp)]
        unfold pathOverrideP
        rw [if_neg]
        intro hc
        exact hi hc.2

/-! ### Permutation invariance of the recomputed map -/

theorem any_perm {α : Type} (p : α → Bool) {l l' : List α} (hp : l.Perm l') :
    l.any p = l'.any p := by
  cases hl : l.any p with
  | true =>
    obtain ⟨x, hx, hpx⟩ := List.any_eq_true.mp hl
    exact (List.any_eq_true.mpr ⟨x, hp.mem_iff.mp hx, hpx⟩).symm
  | false =>
    cases hl' : l'.any p with
    | false => rfl
    | true =>
      obtain ⟨x, hx, hpx⟩ := List.any_eq_true.mp hl'
      have hcon : l.any p = true := List.any_eq_true.mpr ⟨x, hp.mem_iff.mpr hx, hpx⟩
      rw [hl] at hcon
      exact absurd hcon (by simp)

theorem touched_perm (f f' : List (Nat × Digest)) (hp : f.Perm f') (h i : Nat) :
    touched f h i = touched f' h i :=
  any_perm _ hp

theorem alookup_eq_some_of_mem {κ α : Type} [DecidableEq κ] (l : List (κ × α)) (k : κ) (v : α)
    (hnd : (l.map Prod.fst).Nodup) (hm : (k, v) ∈ l) : alookup l k = some v := by
  induction l with
  | nil => simp at hm
  | cons q rest ih =>
    obtain ⟨k0, v0⟩ := q
    simp only [List.map_cons, List.nodup_cons] at hnd
    rcases List.mem_cons.mp hm with he | hm'
    · rw [Prod.mk.injEq] at he
      obtain ⟨rfl, rfl⟩ := he
      simp [alookup]
    · have hk : k ≠ k0 := by
        intro hc
        subst hc
        exact hnd.1 (List.mem_map_of_mem Prod.fst hm')
      simp only [alookup]
      rw [if_neg hk]
      exact ih hnd.2 hm'

theorem mem_of_alookup_eq_some {κ α : Type} [DecidableEq κ] (l : List (κ × α)) (k : κ) (v : α)
    (h : alookup l k = some v) : (k, v) ∈ l := by
  induction l with
  | nil => simp [alookup] at h
  | cons q rest ih =>
    obtain ⟨k0, v0⟩ := q
    simp only [alookup] at h
    by_cases hk : k = k0
    · rw [if_pos hk] at h
      injection h with h
      subst hk
      subst h
      exact List.mem_cons_self _ _
    · rw [if_neg hk] at h
      exact List.mem_cons_of_mem _ (ih h)

theorem alookup_eq_none_iff {κ α : Type} [DecidableEq κ] (l : List (κ × α)) (k : κ) :
    alookup l k = none ↔ k ∉ l.map Prod.fst := by
  rw [← alookup_isSome_iff_mem_keys]
  cases alookup l k <;> simp

theorem alookup_perm {κ α : Type} [DecidableEq κ] (l l' : List (κ × α)) (hp : l.Perm l')
    (hnd : (l.map Prod.fst).Nodup) (k : κ) : alookup l k = alookup l' k := by
  have hnd' : (l'.map Prod.fst).Nodup := ((hp.map Prod.fst).nodup_iff).mp hnd
  cases hl : alookup l k with
  | some v =>
    rw [alookup_eq_some_of_mem l' k v hnd'
      (hp.mem_iff.mp (mem_of_alookup_eq_some l k v hl))]
  | none =>
    rw [eq_comm, alookup_eq_none_iff]
    rw [alookup_eq_none_iff] at hl
    intro hc
    exact hl (((hp.map Prod.fst).mem_iff).mpr hc)

theorem newVal_perm (V : NodeKey → Digest) (f f' : List (Nat × Digest)) (hp : f.Perm f')
    (hnd : (f.map Prod.fst).Nodup) : ∀ h i, newVal V f h i = newVal V f' h i := by
  intro h
  induction h with
  | zero =>
    intro i
    rw [newVal_zero, newVal_zero, touched_perm f f' hp, alookup_perm f f' hp hnd]
  | succ h ih =>
    intro i
    rw [newVal_succ, newVal_succ, touched_perm f f' hp, ih (2 * i), ih (2 * i + 1)]

/-! ### The sequential update root -/

theorem seq_foldl_snd_indep (rest : List (Nat × Bytes)) (hne : rest ≠ []) (t1 : MerkleTree)
    (r r' : Digest) :
    rest.foldl (fun acc iv => updateElement acc.1 iv.1 iv.2) (t1, r)
      = rest.foldl (fun acc iv => updateElement acc.1 iv.1 iv.2) (t1, r') := by
  match rest with
  | [] => exact absurd rfl hne
  | x :: xs => rfl

theorem seq_root : ∀ (us : List (Nat × Bytes)) (t : MerkleTree),
    us ≠ [] → (us.map Prod.fst).Nodup → (∀ p ∈ us, p.1 < 2 ^ t.depth) →
    (seqUpdate t us).2 = newVal (nodeVal t) (leafDigests us) t.depth 0 := by
  intro us
  induction us with
  | nil =>
    intro t hne
    exact absurd rfl hne
  | cons u rest ih =>
    intro t _ hnd hrange
    obtain ⟨hr, hV, hdp, _, _, _, _⟩ := updateElement_spec t u.1 u.2
      (updateElement t u.1 u.2).1 (updateElement t u.1 u.2).2 rfl
    rw [List.map_cons, List.nodup_cons] at hnd
    obtain ⟨hnotin, hndrest⟩ := hnd
    by_cases hre : rest = []
    · subst hre
      have hseq : (seqUpdate t [u]).2 = (updateElement t u.1 u.2).2 := rfl
      rw [hseq, hr]
      have hanc : anc u.1 t.depth = 0 :=
        anc_eq_zero_of_lt (hrange u (List.mem_cons_self _ _))
      have hsingle := newVal_single (nodeVal t) u.1 (Sha256Hasher.hash u.2) t.depth
      rw [hanc] at hsingle
      exact hsingle.symm
    · have hseq : seqUpdate t (u :: rest)
          = rest.foldl (fun acc iv => updateElement acc.1 iv.1 iv.2)
              (updateElement t u.1 u.2) := rfl
      have heta : rest.foldl (fun acc iv => updateElement acc.1 iv.1 iv.2)
            (updateElement t u.1 u.2)
          = seqUpdate (updateElement t u.1 u.2).1 rest := by
        show rest.foldl _ ((updateElement t u.1 u.2).1, (updateElement t u.1 u.2).2)
          = rest.foldl _ ((updateElement t u.1 u.2).1, (updateElement t u.1 u.2).1.root)
        exact seq_foldl_snd_indep rest hre _ _ _
      rw [hseq, heta]
      have hrange' : ∀ p ∈ rest, p.1 < 2 ^ (updateElement t u.1 u.2).1.depth := by
        intro p hp
        rw [hdp]
        exact hrange p (List.mem_cons_of_mem _ hp)
      rw [ih (updateElement t u.1 u.2).1 hre hndrest hrange', hdp]
      have hVfun : nodeVal (updateElement t u.1 u.2).1
          = pathOverrideP (nodeVal t) u.1 (Sha256Hasher.hash u.2) t.depth := funext hV
      rw [hVfun]
      have hni : ∀ p ∈ leafDigests rest, p.1 ≠ u.1 := by
        intro p hp hc
        obtain ⟨q, hq, he⟩ := List.mem_map.mp hp
        apply hnotin
        have hpq : p.1 = q.1 := by rw [← he]
        rw [← hc, hpq]
        exact List.mem_map_of_mem Prod.fst hq
      exact newVal_cons (nodeVal t) u.1 (Sha256Hasher.hash u.2) (leafDigests rest)
        t.depth hni t.depth (Nat.le_refl t.depth) 0

/-! ### The batch update root -/

theorem newVal_parent (V : NodeKey → Digest) (f : List (Nat × Digest)) (h i : Nat)
    (ht : touched f h i = true) :
    (if i % 2 = 1 then Sha256Hasher.compress (newVal V f h (sibOf i)) (newVal V f h i)
     else Sha256Hasher.compress (newVal V f h i) (newVal V f h (sibOf i)))
    = newVal V f (h + 1) (i / 2) := by
  rw [newVal_succ, if_pos (touched_up f h i ht)]
  by_cases hodd : i % 2 = 1
  · rw [if_pos hodd]
    have h1 : 2 * (i / 2) = sibOf i := by
      unfold sibOf
      rw [if_pos hodd]
      omega
    have h2 : 2 * (i / 2) + 1 = i := by omega
    rw [h2, h1]
  · rw [if_neg hodd]
    have h1 : 2 * (i / 2) = i := by omega
    have h2 : 2 * (i / 2) + 1 = sibOf i := by
      unfold sibOf
      rw [if_neg hodd]
      omega
    rw [h2, h1]

theorem mem_dedupFirst (l : List Nat) (x : Nat) : x ∈ dedupFirst l ↔ x ∈ l := by
  have hgen : ∀ (l' : List Nat) (acc : List Nat),
      x ∈ l'.foldl (fun acc y => if y ∈ acc then acc else acc ++ [y]) acc
        ↔ x ∈ acc ∨ x ∈ l' := by
    intro l'
    induction l' with
    | nil =>
      intro acc
      simp
    | cons y ys ih =>
      intro acc
      simp only [List.foldl_cons]
      rw [ih]
      by_cases hy : y ∈ acc
      · rw [if_pos hy]
        constructor
        · rintro (hx | hx)
          · exact Or.inl hx
          · exact Or.inr (List.mem_cons_of_mem _ hx)
        · rintro (hx | hx)
          · exact Or.inl hx
          · rcases List.mem_cons.mp hx with rfl | hx
            · exact Or.inl hy
            · exact Or.inr hx
      · rw [if_neg hy]
        constructor
        · rintro (hx | hx)
          · rcases List.mem_append.mp hx with hx | hx
            · exact Or.inl hx
            · simp only [List.mem_singleton] at hx
              exact Or.inr (hx ▸ List.mem_cons_self _ _)
          · exact Or.inr (List.mem_cons_of_mem _ hx)
        · rintro (hx | hx)
          · exact Or.inl (List.mem_append.mpr (Or.inl hx))
          · rcases List.mem_cons.mp hx with rfl | hx
            · exact Or.inl (List.mem_append.mpr (Or.inr (List.mem_singleton_self _)))
            · exact Or.inr hx
  unfold dedupFirst
  rw [hgen l []]
  simp

theorem mem_pendKeysAt (m : NodeMap) (h i : Nat) :
    i ∈ pendKeysAt m h ↔ (h, i) ∈ m.map Prod.fst := by
  unfold pendKeysAt
  rw [List.mem_map]
  constructor
  · rintro ⟨k, hk, rfl⟩
    rw [List.mem_filter] at hk
    have hk1 : k.1 = h := by simpa using hk.2
    have : k = (h, k.2) := Prod.ext hk1 rfl
    rw [← this]
    exact hk.1
  · intro hm
    refine ⟨(h, i), ?_, rfl⟩
    rw [List.mem_filter]
    exact ⟨hm, by simp⟩

theorem leafDigests_keys (us : List (Nat × Bytes)) :
    (leafDigests us).map Prod.fst = us.map Prod.fst := by
  unfold leafDigests
  rw [List.map_map]
  rfl

theorem alookup_leafDigests (us : List (Nat × Bytes)) (hnd : (us.map Prod.fst).Nodup) :
    ∀ p ∈ us, alookup (leafDigests us) p.1 = some (Sha256Hasher.hash p.2) := by
  intro p hp
  apply alookup_eq_some_of_mem
  · rw [leafDigests_keys]
    exact hnd
  · have : (p.1, Sha256Hasher.hash p.2) = (fun iv => (iv.1, Sha256Hasher.hash iv.2)) p := rfl
    rw [this]
    exact List.mem_map_of_mem _ hp

theorem elemStep_eq (c : BatchCtx) (p : Nat × Bytes) :
    elemStep c p =
      ⟨{ c.t with cache := aset c.t.cache (0, p.1) (Sha256Hasher.hash p.2) },
       c.b ++ [((0, p.1), Sha256Hasher.hash p.2)],
       aset c.pend (0, p.1) (Sha256Hasher.hash p.2)⟩ := rfl

theorem phase1_fold (t0 : MerkleTree) (f : List (Nat × Digest)) :
    ∀ (todo : List (Nat × Bytes)) (c : BatchCtx) (done : List Nat),
    (∀ p ∈ todo, alookup f p.1 = some (Sha256Hasher.hash p.2)) →
    P1Inv t0 f c done →
    P1Inv t0 f (todo.foldl elemStep c) (done ++ todo.map Prod.fst) := by
  intro todo
  induction todo with
  | nil =>
    intro c done _ hinv
    simpa using hinv
  | cons p rest ih =>
    intro c done hlk hinv
    obtain ⟨hval, hpend, hbc, hst, hrt, hdp, hmt⟩ := hinv
    have hstep : P1Inv t0 f (elemStep c p) (done ++ [p.1]) := by
      rw [elemStep_eq]
      refine ⟨?_, ?_, ?_, hst, hrt, hdp, hmt⟩
      · intro k
        show nodeVal { c.t with cache := aset c.t.cache (0, p.1) (Sha256Hasher.hash p.2) } k = _
        rw [nodeVal_aset_cache]
        by_cases hk : k = (0, p.1)
        · subst hk
          rw [if_pos rfl, if_pos ⟨rfl, by simp⟩, hlk p (List.mem_cons_self _ _)]
          rfl
        · rw [if_neg hk, hval k]
          have hcond : (k.1 = 0 ∧ k.2 ∈ done ++ [p.1]) ↔ (k.1 = 0 ∧ k.2 ∈ done) := by
            constructor
            · rintro ⟨hk1, hk2⟩
              rcases List.mem_append.mp hk2 with hk2 | hk2
              · exact ⟨hk1, hk2⟩
              · simp only [List.mem_singleton] at hk2
                exact absurd (Prod.ext hk1 hk2) hk
            · rintro ⟨hk1, hk2⟩
              exact ⟨hk1, List.mem_append.mpr (Or.inl hk2)⟩
          by_cases hc : k.1 = 0 ∧ k.2 ∈ done
          · rw [if_pos hc, if_pos (hcond.mpr hc)]
          · rw [if_neg hc, if_neg (fun hx => hc (hcond.mp hx))]
      · intro k
        show alookup (aset c.pend (0, p.1) (Sha256Hasher.hash p.2)) k = _
        rw [alookup_aset]
        by_cases hk : k = (0, p.1)
        · subst hk
          rw [if_pos rfl, if_pos ⟨rfl, by simp⟩, hlk p (List.mem_cons_self _ _)]
        · rw [if_neg hk, hpend k]
          have hcond : (k.1 = 0 ∧ k.2 ∈ done ++ [p.1]) ↔ (k.1 = 0 ∧ k.2 ∈ done) := by
            constructor
            · rintro ⟨hk1, hk2⟩
              rcases List.mem_append.mp hk2 with hk2 | hk2
              · exact ⟨hk1, hk2⟩
              · simp only [List.mem_singleton] at hk2
                exact absurd (Prod.ext hk1 hk2) hk
            · rintro ⟨hk1, hk2⟩
              exact ⟨hk1, List.mem_append.mpr (Or.inl hk2)⟩
          by_cases hc : k.1 = 0 ∧ k.2 ∈ done
          · rw [if_pos hc, if_pos (hcond.mpr hc)]
          · rw [if_neg hc, if_neg (fun hx => hc (hcond.mp hx))]
      · intro kv hkv
        rcases List.mem_append.mp hkv with hkv | hkv
        · exact alookup_aset_isSome _ _ _ _ (hbc kv hkv)
        · simp only [List.mem_singleton] at hkv
          subst hkv
          simp [alookup_aset_self]
    have := ih (elemStep c p) (done ++ [p.1])
      (fun q hq => hlk q (List.mem_cons_of_mem _ hq)) hstep
    rw [List.map_cons]
    rw [show done ++ p.1 :: rest.map Prod.fst = (done ++ [p.1]) ++ rest.map Prod.fst by simp]
    exact this

theorem kinv_step_core (t0 : MerkleTree) (f : List (Nat × Digest)) (h : Nat)
    (t2 : MerkleTree) (b : Batch) (cur : NodeMap) (done : List Nat) (i : Nat)
    (hti : touched f h i = true)
    (hK1 : ∀ k : NodeKey, touched f k.1 k.2 = false → nodeVal t2 k = nodeVal t0 k)
    (hK2 : ∀ k : NodeKey, ∀ v, alookup cur k = some v →
      k.1 = h + 1 ∧ touched f (h + 1) k.2 = true ∧ v = newVal (nodeVal t0) f (h + 1) k.2)
    (hK3 : ∀ j ∈ done, (alookup cur (h + 1, j / 2)).isSome = true)
    (hK4 : (cur.map Prod.fst).Nodup)
    (hK5 : ∀ kv ∈ b, (alookup t2.cache kv.1).isSome = true)
    (hK6 : t2.store = t0.store) (hK7 : t2.root = t0.root) (hK8 : t2.depth = t0.depth)
    (hK9 : t2.meta = t0.meta) :
    KInv t0 f h
      ({ t2 with cache := aset t2.cache (h + 1, i / 2) (newVal (nodeVal t0) f (h + 1) (i / 2)) },
       b ++ [((h + 1, i / 2), newVal (nodeVal t0) f (h + 1) (i / 2))],
       aset cur (h + 1, i / 2) (newVal (nodeVal t0) f (h + 1) (i / 2)))
      (done ++ [i]) := by
  have htup : touched f (h + 1) (i / 2) = true := touched_up f h i hti
  refine ⟨?_, ?_, ?_, ?_, ?_, hK6, hK7, hK8, hK9⟩
  · intro k hk
    show nodeVal { t2 with cache := aset t2.cache _ _ } k = _
    rw [nodeVal_aset_cache]
    have hkne : k ≠ (h + 1, i / 2) := by
      intro hc
      subst hc
      rw [htup] at hk
      exact absurd hk (by simp)
    rw [if_neg hkne]
    exact hK1 k hk
  · intro k v hkv
    show _ ∧ _ ∧ _
    rw [alookup_aset] at hkv
    by_cases hk : k = (h + 1, i / 2)
    · rw [if_pos hk] at hkv
      injection hkv with hkv
      subst hk
      exact ⟨rfl, htup, hkv.symm⟩
    · rw [if_neg hk] at hkv
      exact hK2 k v hkv
  · intro j hj
    show (alookup (aset cur _ _) (h + 1, j / 2)).isSome = true
    rcases List.mem_append.mp hj with hj | hj
    · exact alookup_aset_isSome _ _ _ _ (hK3 j hj)
    · simp only [List.mem_singleton] at hj
      subst hj
      rw [alookup_aset]
      by_cases hk : ((h + 1 : Nat), j / 2) = (h + 1, j / 2)
      · rw [if_pos hk]
        rfl
      · exact absurd rfl hk
  · exact aset_keys_nodup cur _ _ hK4
  · intro kv hkv
    show (alookup (aset t2.cache _ _) kv.1).isSome = true
    rcases List.mem_append.mp hkv with hkv | hkv
    · exact alookup_aset_isSome _ _ _ _ (hK5 kv hkv)
    · simp only [List.mem_singleton] at hkv
      subst hkv
      simp [alookup_aset_self]

theorem idxStep_inv (t0 : MerkleTree) (f : List (Nat × Digest)) (h : Nat) (p : NodeMap)
    (hp : ∀ g i, alookup p (g, i) =
      if g ≤ h ∧ touched f g i = true then some (newVal (nodeVal t0) f g i) else none) :
    ∀ (st : MerkleTree × Batch × NodeMap) (done : List Nat) (i : Nat),
      touched f h i = true → KInv t0 f h st done →
      KInv t0 f h (idxStep h p st i) (done ++ [i]) := by
  intro st done i hti hK
  obtain ⟨t, b, cur⟩ := st
  obtain ⟨K1, K2, K3, K4, K5, K6, K7, K8, K9⟩ := hK
  have hcv : alookup p (h, i) = some (newVal (nodeVal t0) f h i) := by
    rw [hp h i, if_pos ⟨Nat.le_refl h, hti⟩]
  by_cases hsib : touched f h (sibOf i) = true
  · have hsv : alookup p (h, sibOf i) = some (newVal (nodeVal t0) f h (sibOf i)) := by
      rw [hp h (sibOf i), if_pos ⟨Nat.le_refl h, hsib⟩]
    have heq : idxStep h p (t, b, cur) i =
        ({ t with cache := aset t.cache (h + 1, i / 2) (newVal (nodeVal t0) f (h + 1) (i / 2)) },
         b ++ [((h + 1, i / 2), newVal (nodeVal t0) f (h + 1) (i / 2))],
         aset cur (h + 1, i / 2) (newVal (nodeVal t0) f (h + 1) (i / 2))) := by
      simp only [idxStep, hcv, hsv, updateNode]
      rw [newVal_parent (nodeVal t0) f h i hti]
    rw [heq]
    exact kinv_step_core t0 f h t b cur done i hti K1 K2 K3 K4 K5 K6 K7 K8 K9
  · have hsv : alookup p (h, sibOf i) = none := by
      rw [hp h (sibOf i), if_neg (fun hc => hsib hc.2)]
    have hsibf : touched f h (sibOf i) = false := by simpa using hsib
    have hgn : (getNode t (sibOf i) h).1 = newVal (nodeVal t0) f h (sibOf i) := by
      rw [getNode_fst, K1 (h, sibOf i) hsibf]
      exact (newVal_untouched (nodeVal t0) f h (sibOf i) hsibf).symm
    have heq : idxStep h p (t, b, cur) i =
        ({ (getNode t (sibOf i) h).2 with
            cache := aset (getNode t (sibOf i) h).2.cache (h + 1, i / 2)
              (newVal (nodeVal t0) f (h + 1) (i / 2)) },
         b ++ [((h + 1, i / 2), newVal (nodeVal t0) f (h + 1) (i / 2))],
         aset cur (h + 1, i / 2) (newVal (nodeVal t0) f (h + 1) (i / 2))) := by
      simp only [idxStep, hcv, hsv, updateNode]
      rw [hgn, newVal_parent (nodeVal t0) f h i hti]
    rw [heq]
    refine kinv_step_core t0 f h (getNode t (sibOf i) h).2 b cur done i hti ?_ K2 K3 K4 ?_
      ?_ ?_ ?_ ?_
    · intro k hk
      rw [getNode_nodeVal]
      exact K1 k hk
    · intro kv hkv
      exact getNode_cache_isSome t _ h kv.1 (K5 kv hkv)
    · rw [getNode_store]
      exact K6
    · rw [getNode_root]
      exact K7
    · rw [getNode_depth]
      exact K8
    · rw [getNode_meta]
      exact K9

theorem idx_fold (t0 : MerkleTree) (f : List (Nat × Digest)) (h : Nat) (p : NodeMap)
    (hp : ∀ g i, alookup p (g, i) =
      if g ≤ h ∧ touched f g i = true then some (newVal (nodeVal t0) f g i) else none) :
    ∀ (todo : List Nat) (st : MerkleTree × Batch × NodeMap) (done : List Nat),
      (∀ i ∈ todo, touched f h i = true) → KInv t0 f h st done →
      KInv t0 f h (todo.foldl (idxStep h p) st) (done ++ todo) := by
  intro todo
  induction todo with
  | nil =>
    intro st done _ hK
    simpa using hK
  | cons i rest ih =>
    intro st done htd hK
    have hstep := idxStep_inv t0 f h p hp st done i (htd i (List.mem_cons_self _ _)) hK
    have := ih (idxStep h p st i) (done ++ [i])
      (fun j hj => htd j (List.mem_cons_of_mem _ hj)) hstep
    rw [show done ++ i :: rest = (done ++ [i]) ++ rest by simp]
    exact this

theorem heightStep_inv (t0 : MerkleTree) (f : List (Nat × Digest)) (c : BatchCtx) (h : Nat)
    (hinv : BInv t0 f c h) : BInv t0 f (heightStep c h) (h + 1) := by
  obtain ⟨hval, hpend, hbc, hst, hrt, hdp, hmt⟩ := hinv
  have hidx : ∀ i, i ∈ dedupFirst (pendKeysAt c.pend h) ↔ touched f h i = true := by
    intro i
    rw [mem_dedupFirst, mem_pendKeysAt, ← alookup_isSome_iff_mem_keys, hpend h i]
    by_cases ht : touched f h i = true
    · rw [if_pos ⟨Nat.le_refl h, ht⟩]
      simp [ht]
    · rw [if_neg (fun hc => ht hc.2)]
      constructor
      · intro hc
        simp at hc
      · intro hc
        exact absurd hc ht
  have hK0 : KInv t0 f h (c.t, c.b, []) [] := by
    refine ⟨hval, ?_, ?_, ?_, hbc, hst, hrt, hdp, hmt⟩
    · intro k v hkv
      simp [alookup] at hkv
    · intro j hj
      simp at hj
    · simp
  have hKf := idx_fold t0 f h c.pend hpend (dedupFirst (pendKeysAt c.pend h)) (c.t, c.b, [])
    [] (fun i hi => (hidx i).mp hi) hK0
  obtain ⟨K1, K2, K3, K4, K5, K6, K7, K8, K9⟩ := hKf
  have hhs : heightStep c h =
      ⟨((dedupFirst (pendKeysAt c.pend h)).foldl (idxStep h c.pend) (c.t, c.b, [])).1,
       ((dedupFirst (pendKeysAt c.pend h)).foldl (idxStep h c.pend) (c.t, c.b, [])).2.1,
       ((dedupFirst (pendKeysAt c.pend h)).foldl (idxStep h c.pend) (c.t, c.b, [])).2.2.foldl
         (fun m kv => aset m kv.1 kv.2) c.pend⟩ := rfl
  rw [hhs]
  refine ⟨K1, ?_, K5, K6, K7, K8, K9⟩
  intro g i
  show alookup (((dedupFirst (pendKeysAt c.pend h)).foldl (idxStep h c.pend)
    (c.t, c.b, [])).2.2.foldl (fun m kv => aset m kv.1 kv.2) c.pend) (g, i) = _
  cases hcur : alookup ((dedupFirst (pendKeysAt c.pend h)).foldl (idxStep h c.pend)
      (c.t, c.b, [])).2.2 (g, i) with
  | some v =>
    rw [alookup_foldl_aset_some _ c.pend (g, i) v K4 hcur]
    obtain ⟨hg, htc, hv⟩ := K2 (g, i) v hcur
    have hg' : g = h + 1 := hg
    subst hg'
    rw [if_pos ⟨Nat.le_refl _, htc⟩, hv]
  | none =>
    rw [alookup_foldl_aset_none _ c.pend (g, i) hcur, hpend g i]
    by_cases hcond : g ≤ h + 1 ∧ touched f g i = true
    · by_cases hg : g ≤ h
      · rw [if_pos ⟨hg, hcond.2⟩, if_pos hcond]
      · have hg1 : g = h + 1 := by omega
        subst hg1
        exfalso
        obtain ⟨e, he, hanc⟩ := (touched_iff f (h + 1) i).mp hcond.2
        have htj : touched f h (anc e.1 h) = true :=
          (touched_iff f h (anc e.1 h)).mpr ⟨e, he, rfl⟩
        have hjm : anc e.1 h ∈ dedupFirst (pendKeysAt c.pend h) := (hidx _).mpr htj
        have hsome := K3 (anc e.1 h) (by simpa using hjm)
        rw [show anc e.1 h / 2 = i by rw [← anc_succ, hanc]] at hsome
        rw [hcur] at hsome
        simp at hsome
    · rw [if_neg (fun hx => hcond ⟨by omega, hx.2⟩), if_neg hcond]

theorem binv_fold (t0 : MerkleTree) (f : List (Nat × Digest)) :
    ∀ (n h : Nat) (c : BatchCtx), BInv t0 f c h →
      BInv t0 f ((List.range' h n).foldl heightStep c) (h + n) := by
  intro n
  induction n with
  | zero =>
    intro h c hinv
    simpa using hinv
  | succ n ih =>
    intro h c hinv
    rw [List.range'_succ]
    simp only [List.foldl_cons]
    have := ih (h + 1) (heightStep c h) (heightStep_inv t0 f c h hinv)
    rw [show h + (n + 1) = h + 1 + n by omega]
    exact this

theorem p1_to_binv (t0 : MerkleTree) (us : List (Nat × Bytes)) (c : BatchCtx)
    (hinv : P1Inv t0 (leafDigests us) c (us.map Prod.fst)) :
    BInv t0 (leafDigests us) c 0 := by
  obtain ⟨hval, hpend, hbc, hst, hrt, hdp, hmt⟩ := hinv
  have hmem : ∀ i, touched (leafDigests us) 0 i = true ↔ i ∈ us.map Prod.fst := by
    intro i
    rw [touched_zero_isSome, alookup_isSome_iff_mem_keys, leafDigests_keys]
  refine ⟨?_, ?_, hbc, hst, hrt, hdp, hmt⟩
  · intro k hk
    rw [hval k]
    by_cases hk1 : k.1 = 0
    · have hnm : k.2 ∉ us.map Prod.fst := by
        intro hc
        have hmm := (hmem k.2).mpr hc
        rw [hk1] at hk
        rw [hk] at hmm
        simp at hmm
      rw [if_neg (fun hc => hnm hc.2)]
    · rw [if_neg (fun hc => hk1 hc.1)]
  · intro g i
    rw [hpend (g, i)]
    by_cases hg : g = 0
    · subst hg
      by_cases hm : i ∈ us.map Prod.fst
      · rw [if_pos ⟨rfl, hm⟩, if_pos ⟨Nat.le_refl 0, (hmem i).mpr hm⟩]
        have ht := (hmem i).mpr hm
        rw [newVal_zero, if_pos ht]
        have hsome := (touched_zero_isSome _ i).mp ht
        obtain ⟨w, hw⟩ := Option.isSome_iff_exists.mp hsome
        rw [hw]
        rfl
      · rw [if_neg (fun hc => hm hc.2), if_neg (fun hc => hm ((hmem i).mp hc.2))]
    · rw [if_neg (fun hc => hg hc.1), if_neg (fun hc => hg (Nat.le_zero.mp hc.1))]

theorem batch_root (t0 : MerkleTree) (us : List (Nat × Bytes)) (hne : us ≠ [])
    (hnd : (us.map Prod.fst).Nodup) (hrange : ∀ p ∈ us, p.1 < 2 ^ t0.depth) :
    (updateElements t0 us).2 = newVal (nodeVal t0) (leafDigests us) t0.depth 0 := by
  match us with
  | [] => exact absurd rfl hne
  | u :: rest =>
    have h0 : P1Inv t0 (leafDigests (u :: rest)) ⟨t0, [], []⟩ [] := by
      refine ⟨?_, ?_, ?_, rfl, rfl, rfl, rfl⟩
      · intro k
        rw [if_neg (fun hc => (List.not_mem_nil k.2) hc.2)]
      · intro k
        rw [if_neg (fun hc => (List.not_mem_nil k.2) hc.2)]
        rfl
      · intro kv hkv
        simp at hkv
    have hp1 := phase1_fold t0 (leafDigests (u :: rest)) (u :: rest) ⟨t0, [], []⟩ []
      (alookup_leafDigests (u :: rest) hnd) h0
    have hp1' : P1Inv t0 (leafDigests (u :: rest))
        ((u :: rest).foldl elemStep ⟨t0, [], []⟩) ((u :: rest).map Prod.fst) := by
      simpa using hp1
    have hb0 := p1_to_binv t0 (u :: rest) _ hp1'
    have hbf := binv_fold t0 (leafDigests (u :: rest)) t0.depth 0
      ((u :: rest).foldl elemStep ⟨t0, [], []⟩) hb0
    rw [← List.range_eq_range'] at hbf
    simp only [Nat.zero_add] at hbf
    obtain ⟨_, hpend2, _, _, _, _, _⟩ := hbf
    have htd : touched (leafDigests (u :: rest)) t0.depth 0 = true := by
      refine (touched_iff _ _ _).mpr ⟨(u.1, Sha256Hasher.hash u.2), ?_, ?_⟩
      · exact List.mem_map_of_mem (fun iv => (iv.1, Sha256Hasher.hash iv.2))
          (List.mem_cons_self u rest)
      · exact anc_eq_zero_of_lt (hrange u (List.mem_cons_self _ _))
    have hlu := hpend2 t0.depth 0
    rw [if_pos ⟨Nat.le_refl _, htd⟩] at hlu
    show (alookup ((List.range t0.depth).foldl heightStep
      ((u :: rest).foldl elemStep ⟨t0, [], []⟩)).pend (t0.depth, 0)).getD
      ((List.range t0.depth).foldl heightStep ((u :: rest).foldl elemStep ⟨t0, [], []⟩)).t.root
      = _
    rw [hlu]
    rfl

/-- Claim C2 counterexample: for the out-of-range index 2 on a fresh
depth-1 tree, a single `updateElements` call and the sequential
`updateElement` application yield different final roots (the batch call
falls back to the old root because no pending value reaches `(depth, 0)`,
while `updateElement` unconditionally installs the recomputed chain value),
so the claim fails as stated. -/
theorem c2_counterexample_out_of_range :
    (updateElements (freshTree 1) [(2, [1])]).2 ≠ (seqUpdate (freshTree 1) [(2, [1])]).2 := by
  decide

/-- Claim C2 (amended): for every list of `(index, value)` pairs with
all-distinct indices, each less than `2 ^ depth`, a single `updateElements`
call yields the same final root as applying `updateElement` once per pair
sequentially, in any order of the pairs, starting from the same tree
state. -/
theorem c2_batch_eq_sequential (t : MerkleTree) (us us' : List (Nat × Bytes))
    (hperm : us.Perm us') (hnd : (us.map Prod.fst).Nodup)
    (hrange : ∀ p ∈ us, p.1 < 2 ^ t.depth) :
    (updateElements t us).2 = (seqUpdate t us').2 := by
  by_cases hne : us = []
  · subst hne
    have hne' : us' = [] := hperm.symm.eq_nil
    subst hne'
    rfl
  · have hne' : us' ≠ [] := by
      intro hc
      subst hc
      exact hne hperm.eq_nil
    have hnd' : (us'.map Prod.fst).Nodup := ((hperm.map Prod.fst).nodup_iff).mp hnd
    have hrange' : ∀ p ∈ us', p.1 < 2 ^ t.depth := fun p hp => hrange p (hperm.mem_iff.mpr hp)
    rw [batch_root t us hne hnd hrange, seq_root us' t hne' hnd' hrange']
    exact newVal_perm (nodeVal t) (leafDigests us) (leafDigests us')
      (hperm.map _) (by rw [leafDigests_keys]; exact hnd) t.depth 0

theorem c2_batch_eq_sequential_witness :
    ([(0, [1]), (3, [2])] : List (Nat × Bytes)).Perm [(3, [2]), (0, [1])]
    ∧ (([(0, [1]), (3, [2])] : List (Nat × Bytes)).map Prod.fst).Nodup
    ∧ (∀ p ∈ ([(0, [1]), (3, [2])] : List (Nat × Bytes)), p.1 < 2 ^ (freshTree 2).depth)
    ∧ (updateElements (freshTree 2) [(0, [1]), (3, [2])]).2
        = (seqUpdate (freshTree 2) [(3, [2]), (0, [1])]).2 :=
  ⟨by decide, by decide, by decide,
   c2_batch_eq_sequential (freshTree 2) [(0, [1]), (3, [2])] [(3, [2]), (0, [1])]
     (by decide) (by decide) (by decide)⟩

/-! ### Batch contents of `updateElements` -/

theorem commitBatch_store (t : MerkleTree) (b : Batch) :
    (commitBatch t b).store = b.foldl (fun s kv => aset s kv.1 kv.2) t.store := rfl

theorem phase1_batch : ∀ (todo : List (Nat × Bytes)) (c : BatchCtx),
    (todo.foldl elemStep c).b
      = c.b ++ todo.map (fun q => ((0, q.1), Sha256Hasher.hash q.2)) := by
  intro todo
  induction todo with
  | nil =>
    intro c
    simp
  | cons q rest ih =>
    intro c
    simp only [List.foldl_cons, List.map_cons]
    rw [ih (elemStep c q)]
    have hb : (elemStep c q).b = c.b ++ [((0, q.1), Sha256Hasher.hash q.2)] := rfl
    rw [hb, List.append_assoc]
    rfl

theorem idxStep_batch (h : Nat) (p : NodeMap) (st : MerkleTree × Batch × NodeMap) (i : Nat) :
    ∃ d, (idxStep h p st i).2.1 = st.2.1 ++ [((h + 1, i / 2), d)] := by
  obtain ⟨t, b, cur⟩ := st
  rcases hc : alookup p (h, i) with _ | cv <;>
    rcases hs : alookup p (h, sibOf i) with _ | sv <;>
      (simp only [idxStep, hc, hs, updateNode]; exact ⟨_, rfl⟩)

theorem idx_fold_batch (h : Nat) (p : NodeMap) :
    ∀ (todo : List Nat) (st : MerkleTree × Batch × NodeMap),
    ∃ ext, (todo.foldl (idxStep h p) st).2.1 = st.2.1 ++ ext ∧ ∀ kv ∈ ext, 0 < kv.1.1 := by
  intro todo
  induction todo with
  | nil =>
    intro st
    exact ⟨[], by simp, by simp⟩
  | cons i rest ih =>
    intro st
    obtain ⟨ext, hext, hh⟩ := ih (idxStep h p st i)
    obtain ⟨d, hd⟩ := idxStep_batch h p st i
    refine ⟨[((h + 1, i / 2), d)] ++ ext, ?_, ?_⟩
    · simp only [List.foldl_cons]
      rw [hext, hd, List.append_assoc]
    · intro kv hkv
      rcases List.mem_append.mp hkv with hkv | hkv
      · simp only [List.mem_singleton] at hkv
        subst hkv
        show 0 < h + 1
        omega
      · exact hh kv hkv

theorem heightStep_batch (c : BatchCtx) (h : Nat) :
    ∃ ext, (heightStep c h).b = c.b ++ ext ∧ ∀ kv ∈ ext, 0 < kv.1.1 := by
  obtain ⟨ext, hext, hh⟩ :=
    idx_fold_batch h c.pend (dedupFirst (pendKeysAt c.pend h)) (c.t, c.b, [])
  exact ⟨ext, hext, hh⟩

theorem heights_fold_batch : ∀ (l : List Nat) (c : BatchCtx),
    ∃ ext, (l.foldl heightStep c).b = c.b ++ ext ∧ ∀ kv ∈ ext, 0 < kv.1.1 := by
  intro l
  induction l with
  | nil =>
    intro c
    exact ⟨[], by simp, by simp⟩
  | cons h rest ih =>
    intro c
    obtain ⟨e1, he1, hh1⟩ := heightStep_batch c h
    obtain ⟨e2, he2, hh2⟩ := ih (heightStep c h)
    refine ⟨e1 ++ e2, ?_, ?_⟩
    · simp only [List.foldl_cons]
      rw [he2, he1, List.append_assoc]
    · intro kv hkv
      rcases List.mem_append.mp hkv with hkv | hkv
      · exact hh1 kv hkv
      · exact hh2 kv hkv

theorem idxStep_store (h : Nat) (p : NodeMap) (st : MerkleTree × Batch × NodeMap) (i : Nat) :
    (idxStep h p st i).1.store = st.1.store := by
  unfold idxStep
  rcases hc : alookup p (h, i) with _ | cv <;>
    rcases hs : alookup p (h, sibOf i) with _ | sv <;>
      simp [hc, hs, updateNode, getNode_store]

theorem heightStep_store (c : BatchCtx) (h : Nat) : (heightStep c h).t.store = c.t.store := by
  show ((dedupFirst (pendKeysAt c.pend h)).foldl (idxStep h c.pend) (c.t, c.b, [])).1.store
    = c.t.store
  refine foldl_invariant (fun st => st.1.store = c.t.store) (idxStep h c.pend) ?_
    (dedupFirst (pendKeysAt c.pend h)) (c.t, c.b, []) rfl
  intro x b hx
  exact (idxStep_store h c.pend x b).trans hx

theorem updateElements_ctx_store (t : MerkleTree) (us : List (Nat × Bytes)) (l : List Nat) :
    (l.foldl heightStep (us.foldl elemStep ⟨t, [], []⟩)).t.store = t.store := by
  have h1 : (us.foldl elemStep ⟨t, [], []⟩).t.store = t.store := by
    refine foldl_invariant (fun c => c.t.store = t.store) elemStep ?_ us ⟨t, [], []⟩ rfl
    intro x b hx
    exact hx
  refine foldl_invariant (fun c => c.t.store = t.store) heightStep ?_ l
    (us.foldl elemStep ⟨t, [], []⟩) h1
  intro x b hx
  exact (heightStep_store x b).trans hx

theorem updateElements_store_cons (t : MerkleTree) (u : Nat × Bytes)
    (rest : List (Nat × Bytes)) :
    (updateElements t (u :: rest)).1.store =
      (((List.range t.depth).foldl heightStep ((u :: rest).foldl elemStep ⟨t, [], []⟩)).b).foldl
        (fun s kv => aset s kv.1 kv.2)
        ((List.range t.depth).foldl heightStep
          ((u :: rest).foldl elemStep ⟨t, [], []⟩)).t.store := rfl

theorem updateElements_root_eq (t : MerkleTree) (us : List (Nat × Bytes)) :
    (updateElements t us).1.root = (updateElements t us).2 := by
  match us with
  | [] => rfl
  | u :: rest => rfl

theorem updateElements_leaf_store (t : MerkleTree) (us : List (Nat × Bytes)) (hne : us ≠ [])
    (hnd : (us.map Prod.fst).Nodup) :
    ∀ p ∈ us, alookup (updateElements t us).1.store (0, p.1)
      = some (Sha256Hasher.hash p.2) := by
  match us with
  | [] => exact absurd rfl hne
  | u :: rest =>
    intro p hp
    have hc1b : ((u :: rest).foldl elemStep ⟨t, [], []⟩).b
        = (u :: rest).map (fun q => ((0, q.1), Sha256Hasher.hash q.2)) := by
      rw [phase1_batch]
      rfl
    obtain ⟨ext, hext, hh⟩ := heights_fold_batch (List.range t.depth)
      ((u :: rest).foldl elemStep ⟨t, [], []⟩)
    rw [updateElements_store_cons, updateElements_ctx_store, hext, hc1b,
      List.foldl_append]
    rw [alookup_foldl_aset_notmem ext _ (0, p.1) ?_]
    · have hndm : (((u :: rest).map (fun q => ((0, q.1), Sha256Hasher.hash q.2))).map
          Prod.fst).Nodup := by
        have hmm : ((u :: rest).map (fun q => ((0, q.1), Sha256Hasher.hash q.2))).map Prod.fst
            = ((u :: rest).map Prod.fst).map (fun i => ((0 : Nat), i)) := by
          rw [List.map_map, List.map_map]
          rfl
        rw [hmm]
        refine List.Nodup.map ?_ hnd
        intro a b hab
        simpa using hab
      apply alookup_foldl_aset_some _ _ _ _ hndm
      apply alookup_eq_some_of_mem _ _ _ hndm
      exact List.mem_map_of_mem (fun q => ((0, q.1), Sha256Hasher.hash q.2)) hp
    · intro kv hkv hk
      have := hh kv hkv
      rw [hk] at this
      simp at this

/-- Claim C10 (amended): `updateElement` and `updateElements` perform no
validation of their arguments: for every index (in range or not) and every
value of any length, the operation completes and commits its node and
metadata writes — the leaf digests are durably stored (for `updateElements`
one per distinct submitted index) and the metadata record is rewritten, with
the instance root reassigned to the returned recomputed value, which may
coincide with the previous root. -/
theorem c10_no_validation (t : MerkleTree) (i : Nat) (v : Bytes)
    (us : List (Nat × Bytes)) (hne : us ≠ []) (hnd : (us.map Prod.fst).Nodup) :
    alookup (updateElement t i v).1.store (0, i) = some (Sha256Hasher.hash v)
    ∧ (updateElement t i v).1.meta = some ((updateElement t i v).2, t.depth)
    ∧ (updateElement t i v).1.root = (updateElement t i v).2
    ∧ (∀ p ∈ us, alookup (updateElements t us).1.store (0, p.1)
        = some (Sha256Hasher.hash p.2))
    ∧ (updateElements t us).1.meta = some ((updateElements t us).2, t.depth)
    ∧ (updateElements t us).1.root = (updateElements t us).2 := by
  obtain ⟨_, _, _, hrt, hmt, _, hstl⟩ :=
    updateElement_spec t i v (updateElement t i v).1 (updateElement t i v).2 rfl
  exact ⟨hstl, hmt, hrt, updateElements_leaf_store t us hne hnd,
    updateElements_meta t us hne, updateElements_root_eq t us⟩

theorem c10_no_validation_witness :
    ([(5, [7])] : List (Nat × Bytes)) ≠ []
    ∧ (([(5, [7])] : List (Nat × Bytes)).map Prod.fst).Nodup
    ∧ (alookup (updateElement (freshTree 1) 4 [1, 2, 3]).1.store (0, 4)
         = some (Sha256Hasher.hash [1, 2, 3])
       ∧ (updateElement (freshTree 1) 4 [1, 2, 3]).1.meta
         = some ((updateElement (freshTree 1) 4 [1, 2, 3]).2, (freshTree 1).depth)
       ∧ (updateElement (freshTree 1) 4 [1, 2, 3]).1.root
         = (updateElement (freshTree 1) 4 [1, 2, 3]).2
       ∧ (∀ p ∈ ([(5, [7])] : List (Nat × Bytes)),
           alookup (updateElements (freshTree 1) [(5, [7])]).1.store (0, p.1)
             = some (Sha256Hasher.hash p.2))
       ∧ (updateElements (freshTree 1) [(5, [7])]).1.meta
         = some ((updateElements (freshTree 1) [(5, [7])]).2, (freshTree 1).depth)
       ∧ (updateElements (freshTree 1) [(5, [7])]).1.root
         = (updateElements (freshTree 1) [(5, [7])]).2) :=
  ⟨by simp, by simp,
   c10_no_validation (freshTree 1) 4 [1, 2, 3] [(5, [7])] (by simp) (by simp)⟩
